import Mathlib

/-!
Formal model of the core of a toroidal grid snake bot: grid geometry
(src/direction.rs), board tracking (src/board_tracker.rs), the multi-source
distance field (src/distance.rs), the reachability flood fill
(src/reachability.rs), the shortest-path next-step resolver
(src/shortest_path.rs) and the Monte-Carlo playout engine (src/playout.rs),
together with proofs of the specified properties.

Machine integers (usize) are modelled as Nat; the usize::MAX sentinel for
an unoccupied cell / unassigned distance is modelled as an Option being
none; a Rust function that can hit an assertion is modelled as returning
an Option, none standing for the fatal case.
-/

namespace SnakeBot

/-- Movement direction on the toroidal grid (src/direction.rs). -/
inductive Direction where
  | up
  | right
  | down
  | left
deriving DecidableEq, Repr

namespace Direction

/-- Opposite direction (src/direction.rs, Direction::reverse). -/
def reverse : Direction → Direction
  | up => down
  | right => left
  | down => up
  | left => right

/-- Signed horizontal displacement of a direction, as in the match inside
Direction::offset_pos. -/
def dx : Direction → Int
  | left => -1
  | right => 1
  | _ => 0

/-- Signed vertical displacement of a direction, as in the match inside
Direction::offset_pos. -/
def dy : Direction → Int
  | up => -1
  | down => 1
  | _ => 0

/-- Toroidal offset of a position (src/direction.rs, Direction::offset_pos).
The source asserts that the input position is inside the board, adds the
displacement plus the board size on each axis as a signed integer, casts
back to an unsigned integer and takes the remainder by the size. -/
def offset_pos (d : Direction) (pos size : Nat × Nat) : Nat × Nat :=
  ((((pos.1 : Int) + d.dx + (size.1 : Int)).toNat) % size.1,
   (((pos.2 : Int) + d.dy + (size.2 : Int)).toNat) % size.2)

/-- The four cardinal directions in source order
(src/direction.rs, Direction::all_directions). -/
def all_directions : List Direction := [up, right, down, left]

theorem reverse_reverse (d : Direction) : d.reverse.reverse = d := by
  cases d <;> rfl

/-- The unsigned wraparound arithmetic of one axis, displacement +1. -/
theorem wrap_add_one (w x : Nat) : (((x : Int) + 1 + (w : Int)).toNat) % w = (x + 1) % w := by
  have h : ((x : Int) + 1 + (w : Int)).toNat = x + 1 + w := by omega
  rw [h, Nat.add_mod_right]

/-- The unsigned wraparound arithmetic of one axis, displacement 0. -/
theorem wrap_add_zero (w x : Nat) (hx : x < w) :
    (((x : Int) + 0 + (w : Int)).toNat) % w = x := by
  have h : ((x : Int) + 0 + (w : Int)).toNat = x + w := by omega
  rw [h, Nat.add_mod_right, Nat.mod_eq_of_lt hx]

/-- The unsigned wraparound arithmetic of one axis, displacement -1. -/
theorem wrap_sub_one (w x : Nat) :
    (((x : Int) + -1 + (w : Int)).toNat) % w = (x + w - 1) % w := by
  have h : ((x : Int) + -1 + (w : Int)).toNat = x + w - 1 := by omega
  rw [h]

theorem add_one_then_sub_one (w x : Nat) (hw : 0 < w) (hx : x < w) :
    ((x + 1) % w + w - 1) % w = x := by
  rcases Nat.lt_or_ge (x + 1) w with h | h
  · rw [Nat.mod_eq_of_lt h]
    have h2 : x + 1 + w - 1 = x + w := by omega
    rw [h2, Nat.add_mod_right, Nat.mod_eq_of_lt hx]
  · have hxw : x + 1 = w := by omega
    have h2 : (x + 1) % w = 0 := by rw [hxw, Nat.mod_self]
    rw [h2]
    have h3 : 0 + w - 1 = x := by omega
    rw [h3, Nat.mod_eq_of_lt hx]

theorem sub_one_then_add_one (w x : Nat) (hw : 0 < w) (hx : x < w) :
    ((x + w - 1) % w + 1) % w = x := by
  rcases Nat.eq_zero_or_pos x with h0 | h0
  · subst h0
    have h1 : 0 + w - 1 = w - 1 := by omega
    have hlt : w - 1 < w := by omega
    rw [h1, Nat.mod_eq_of_lt hlt]
    have h2 : w - 1 + 1 = w := by omega
    rw [h2, Nat.mod_self]
  · have h1 : x + w - 1 = (x - 1) + w := by omega
    have hlt : x - 1 < w := by omega
    rw [h1, Nat.add_mod_right, Nat.mod_eq_of_lt hlt]
    have h2 : x - 1 + 1 = x := by omega
    rw [h2, Nat.mod_eq_of_lt hx]

/-- Offsetting keeps a position inside the board. -/
theorem offset_pos_lt (d : Direction) (pos : Nat × Nat) (w h : Nat)
    (hw : 0 < w) (hh : 0 < h) :
    (d.offset_pos pos (w, h)).1 < w ∧ (d.offset_pos pos (w, h)).2 < h := by
  constructor
  · exact Nat.mod_lt _ hw
  · exact Nat.mod_lt _ hh

/-- C2: for every positive board size, in-bounds position and direction,
offsetting by the direction and then by its reverse returns the original
position (the toroidal wraparound round-trips). -/
theorem C2_offset_reverse_roundtrip (w h x y : Nat) (d : Direction)
    (hw : 0 < w) (hh : 0 < h) (hx : x < w) (hy : y < h) :
    d.reverse.offset_pos (d.offset_pos (x, y) (w, h)) (w, h) = (x, y) := by
  have hx1 : ∀ z, z % w < w := fun z => Nat.mod_lt _ hw
  have hy1 : ∀ z, z % h < h := fun z => Nat.mod_lt _ hh
  cases d <;>
    simp only [offset_pos, reverse, dx, dy] <;>
    refine Prod.ext ?_ ?_ <;>
    simp only
  · -- up, x axis
    rw [wrap_add_zero w x hx, wrap_add_zero w x hx]
  · -- up, y axis
    rw [wrap_sub_one h y, wrap_add_one h ((y + h - 1) % h),
      sub_one_then_add_one h y hh hy]
  · -- right, x axis
    rw [wrap_add_one w x, wrap_sub_one w ((x + 1) % w),
      add_one_then_sub_one w x hw hx]
  · -- right, y axis
    rw [wrap_add_zero h y hy, wrap_add_zero h y hy]
  · -- down, x axis
    rw [wrap_add_zero w x hx, wrap_add_zero w x hx]
  · -- down, y axis
    rw [wrap_add_one h y, wrap_sub_one h ((y + 1) % h),
      add_one_then_sub_one h y hh hy]
  · -- left, x axis
    rw [wrap_sub_one w x, wrap_add_one w ((x + w - 1) % w),
      sub_one_then_add_one w x hw hx]
  · -- left, y axis
    rw [wrap_add_zero h y hy, wrap_add_zero h y hy]

/-- C2 witness at a concrete input. -/
theorem C2_offset_reverse_roundtrip_witness :
    Direction.right.reverse.offset_pos
      (Direction.right.offset_pos (2, 1) (3, 2)) (3, 2) = (2, 1) :=
  C2_offset_reverse_roundtrip 3 2 2 1 .right (by decide) (by decide)
    (by decide) (by decide)

end Direction

/-! ## List access helpers -/

theorem getElem?_of_lt {α : Type} (l : List α) (k : Nat) (d : α) (h : k < l.length) :
    l[k]? = some (l.getD k d) := by
  rw [List.getElem?_eq_getElem h, List.getD_eq_getElem?_getD, List.getElem?_eq_getElem h]
  rfl

theorem getD_of_le {α : Type} (l : List α) (k : Nat) (d : α) (h : l.length ≤ k) :
    l.getD k d = d := by
  rw [List.getD_eq_getElem?_getD, List.getElem?_eq_none h]
  rfl

theorem lt_of_getD_eq_some {α : Type} (l : List (Option α)) (k : Nat) (v : α)
    (h : l.getD k none = some v) : k < l.length := by
  by_contra hk
  rw [getD_of_le l k none (by omega)] at h
  exact Option.noConfusion h

theorem getD_set {α : Type} (l : List α) (i k : Nat) (v d : α) :
    (l.set i v).getD k d = if i = k ∧ i < l.length then v else l.getD k d := by
  rw [List.getD_eq_getElem?_getD, List.getElem?_set, List.getD_eq_getElem?_getD]
  by_cases h1 : i = k
  · by_cases h2 : i < l.length <;> subst h1 <;> simp [h2]
    rw [List.getElem?_eq_none (by omega)]
    rfl
  · simp [h1]

theorem getD_map_none {α β : Type} (l : List (Option α)) (f : Option α → Option β) (k : Nat)
    (hf : f none = none) :
    (l.map f).getD k none = f (l.getD k none) := by
  rcases Nat.lt_or_ge k l.length with h | h
  · rw [List.getD_eq_getElem?_getD, List.getElem?_map,
      List.getElem?_eq_getElem h, List.getD_eq_getElem?_getD, List.getElem?_eq_getElem h]
    rfl
  · rw [getD_of_le _ _ _ (by simpa using h), getD_of_le _ _ _ h, hf]

theorem cellIdx_lt (w h x y : Nat) (hx : x < w) (hy : y < h) : y * w + x < w * h := by
  calc y * w + x < (y + 1) * w := by ring_nf; omega
    _ ≤ h * w := Nat.mul_le_mul_right w hy
    _ = w * h := Nat.mul_comm h w

/-! ## Board tracker (src/board_tracker.rs) -/

/-- Per-player record (src/board_tracker.rs, BoardTrackerPlayer). -/
structure BoardTrackerPlayer where
  latest_pos : Option (Nat × Nat)
  dead : Bool
deriving DecidableEq, Repr

/-- The filler record that Vec::resize inserts when a previously unseen
player id is materialized. -/
def fillerPlayer : BoardTrackerPlayer := ⟨none, false⟩

/-- Board and player state (src/board_tracker.rs, BoardTracker).  A cell
holding the NO_PLAYER sentinel is modelled as none. -/
structure BoardTracker where
  width : Nat
  height : Nat
  board : List (Option Nat)
  players : List BoardTrackerPlayer
deriving DecidableEq, Repr

namespace BoardTracker

/-- BoardTracker::new. -/
def new (width height : Nat) : BoardTracker :=
  ⟨width, height, List.replicate (width * height) none, []⟩

/-- BoardTracker::board_size. -/
def board_size (t : BoardTracker) : Nat × Nat := (t.width, t.height)

/-- The resize step of BoardTracker::get_or_create_internal_player_mut. -/
def ensurePlayers (l : List BoardTrackerPlayer) (player_id : Nat) :
    List BoardTrackerPlayer :=
  if l.length ≤ player_id then
    l ++ List.replicate (player_id + 1 - l.length) fillerPlayer
  else l

/-- Materialize the entry of get_or_create_internal_player_mut and mutate it. -/
def updatePlayer (l : List BoardTrackerPlayer) (player_id : Nat)
    (f : BoardTrackerPlayer → BoardTrackerPlayer) : List BoardTrackerPlayer :=
  let l2 := ensurePlayers l player_id
  l2.set player_id (f (l2.getD player_id fillerPlayer))

/-- BoardTracker::is_dead (the source indexes the players vector; unseen
ids are modelled by the filler default, whose dead flag is false). -/
def is_dead (t : BoardTracker) (player_id : Nat) : Bool :=
  (t.players.getD player_id fillerPlayer).dead

/-- BoardTracker::count_dead. -/
def count_dead (t : BoardTracker) : Nat := t.players.countP (·.dead)

/-- BoardTracker::count_alive. -/
def count_alive (t : BoardTracker) : Nat := t.players.countP (fun p => !p.dead)

/-- BoardTracker::count_seen. -/
def count_seen (t : BoardTracker) : Nat := t.players.length

/-- BoardTracker::get_cell_player. -/
def get_cell_player (t : BoardTracker) (pos : Nat × Nat) : Option Nat :=
  t.board.getD (pos.2 * t.width + pos.1) none

/-- BoardTracker::get_player_latest_pos. -/
def get_player_latest_pos (t : BoardTracker) (player_id : Nat) :
    Option (Nat × Nat) :=
  (t.players[player_id]?).bind (·.latest_pos)

/-- BoardTracker::record_pos.  Returns the updated tracker and whether the
target cell was already occupied before the write. -/
def record_pos (t : BoardTracker) (player_id : Nat) (pos : Nat × Nat) :
    BoardTracker × Bool :=
  let i := pos.2 * t.width + pos.1
  let duplicate := (t.board.getD i none).isSome
  ({ t with
      board := t.board.set i (some player_id),
      players := updatePlayer t.players player_id (fun _ => ⟨some pos, false⟩) },
   duplicate)

/-- BoardTracker::record_death. -/
def record_death (t : BoardTracker) (player_id : Nat) (clear : Bool) :
    BoardTracker :=
  let t2 : BoardTracker :=
    { t with players := updatePlayer t.players player_id (fun p => ⟨p.latest_pos, true⟩) }
  if clear then
    { t2 with board := t2.board.map (fun c => if c = some player_id then none else c) }
  else t2

/-- BoardTracker::offset_pos. -/
def offset_pos (t : BoardTracker) (pos : Nat × Nat) (d : Direction) : Nat × Nat :=
  d.offset_pos pos (t.width, t.height)

/-- BoardTracker::occupied_mask. -/
def occupied_mask (t : BoardTracker) : List Bool := t.board.map Option.isSome

/-! ### Player list lemmas -/

theorem ensurePlayers_length (l : List BoardTrackerPlayer) (pid : Nat) :
    (ensurePlayers l pid).length = max l.length (pid + 1) := by
  unfold ensurePlayers
  split <;> simp <;> omega

theorem ensurePlayers_getD (l : List BoardTrackerPlayer) (pid k : Nat) :
    (ensurePlayers l pid).getD k fillerPlayer = l.getD k fillerPlayer := by
  unfold ensurePlayers
  split
  · rename_i hle
    rw [List.getD_eq_getElem?_getD, List.getElem?_append]
    split
    · rw [← List.getD_eq_getElem?_getD]
    · rename_i hk
      rw [List.getElem?_replicate]
      rw [getD_of_le l k fillerPlayer (by omega)]
      split <;> rfl
  · rfl

theorem updatePlayer_length (l : List BoardTrackerPlayer) (pid : Nat)
    (f : BoardTrackerPlayer → BoardTrackerPlayer) :
    (updatePlayer l pid f).length = max l.length (pid + 1) := by
  unfold updatePlayer
  rw [List.length_set, ensurePlayers_length]

theorem updatePlayer_getD (l : List BoardTrackerPlayer) (pid k : Nat)
    (f : BoardTrackerPlayer → BoardTrackerPlayer) :
    (updatePlayer l pid f).getD k fillerPlayer =
      if k = pid then f (l.getD pid fillerPlayer) else l.getD k fillerPlayer := by
  unfold updatePlayer
  rw [getD_set, ensurePlayers_getD]
  by_cases hk : k = pid
  · subst hk
    have hlt : k < (ensurePlayers l k).length := by
      rw [ensurePlayers_length]; omega
    simp [hlt, ensurePlayers_getD]
  · have h1 : ¬(pid = k ∧ pid < (ensurePlayers l pid).length) := by
      intro hc
      exact hk hc.1.symm
    simp only [h1, if_false, ensurePlayers_getD]
    rw [if_neg hk]

theorem updatePlayer_def (l : List BoardTrackerPlayer) (pid : Nat)
    (f : BoardTrackerPlayer → BoardTrackerPlayer) :
    updatePlayer l pid f =
      (ensurePlayers l pid).set pid (f ((ensurePlayers l pid).getD pid fillerPlayer)) := rfl

theorem record_pos_board (t : BoardTracker) (pid : Nat) (pos : Nat × Nat) :
    (t.record_pos pid pos).1.board = t.board.set (pos.2 * t.width + pos.1) (some pid) := rfl

theorem record_pos_players (t : BoardTracker) (pid : Nat) (pos : Nat × Nat) :
    (t.record_pos pid pos).1.players =
      updatePlayer t.players pid (fun _ => ⟨some pos, false⟩) := rfl

theorem record_pos_width (t : BoardTracker) (pid : Nat) (pos : Nat × Nat) :
    (t.record_pos pid pos).1.width = t.width := rfl

theorem record_pos_height (t : BoardTracker) (pid : Nat) (pos : Nat × Nat) :
    (t.record_pos pid pos).1.height = t.height := rfl

theorem record_pos_snd (t : BoardTracker) (pid : Nat) (pos : Nat × Nat) :
    (t.record_pos pid pos).2 = (t.board.getD (pos.2 * t.width + pos.1) none).isSome := rfl

theorem record_death_players (t : BoardTracker) (pid : Nat) (c : Bool) :
    (t.record_death pid c).players =
      updatePlayer t.players pid (fun p => ⟨p.latest_pos, true⟩) := by
  unfold record_death
  split <;> rfl

theorem record_death_board (t : BoardTracker) (pid : Nat) (c : Bool) :
    (t.record_death pid c).board =
      if c then t.board.map (fun x => if x = some pid then none else x)
      else t.board := by
  unfold record_death
  split <;> simp_all

theorem record_death_width (t : BoardTracker) (pid : Nat) (c : Bool) :
    (t.record_death pid c).width = t.width := by
  unfold record_death
  split <;> rfl

theorem record_death_height (t : BoardTracker) (pid : Nat) (c : Bool) :
    (t.record_death pid c).height = t.height := by
  unfold record_death
  split <;> rfl

theorem is_dead_eq (t : BoardTracker) (pid : Nat) :
    t.is_dead pid = (t.players.getD pid fillerPlayer).dead := rfl

theorem count_seen_eq (t : BoardTracker) : t.count_seen = t.players.length := rfl

theorem get_player_latest_pos_eq_getD (t : BoardTracker) (q : Nat) :
    t.get_player_latest_pos q = (t.players.getD q fillerPlayer).latest_pos := by
  unfold get_player_latest_pos
  rcases Nat.lt_or_ge q t.players.length with h | h
  · rw [getElem?_of_lt t.players q fillerPlayer h]
    rfl
  · rw [List.getElem?_eq_none h, getD_of_le _ _ _ h]
    rfl

/-! ### C6: record_pos -/

/-- C6: for every board, player id and in-bounds position, record_pos sets
the cell at the position to be owned by the player, sets that player's
latest position, clears its dead flag, and returns true exactly when the
cell was occupied by some player immediately before the write. -/
theorem C6_record_pos (t : BoardTracker) (pid : Nat) (p : Nat × Nat)
    (hx : p.1 < t.width) (hy : p.2 < t.height)
    (hlen : t.board.length = t.width * t.height) :
    (t.record_pos pid p).1.get_cell_player p = some pid ∧
    (t.record_pos pid p).1.get_player_latest_pos pid = some p ∧
    (t.record_pos pid p).1.is_dead pid = false ∧
    ((t.record_pos pid p).2 = true ↔ (t.get_cell_player p).isSome = true) := by
  have hidx : p.2 * t.width + p.1 < t.board.length := by
    rw [hlen]; exact cellIdx_lt _ _ _ _ hx hy
  refine ⟨?_, ?_, ?_, ?_⟩
  · unfold get_cell_player
    rw [record_pos_board, record_pos_width, getD_set]
    simp [hidx]
  · rw [get_player_latest_pos_eq_getD, record_pos_players, updatePlayer_getD]
    simp
  · rw [is_dead_eq, record_pos_players, updatePlayer_getD]
    simp
  · exact Iff.rfl

/-- C6 witness at a concrete input. -/
theorem C6_record_pos_witness :
    ((BoardTracker.new 2 2).record_pos 1 (1, 0)).1.get_cell_player (1, 0) = some 1 ∧
    ((BoardTracker.new 2 2).record_pos 1 (1, 0)).1.get_player_latest_pos 1 = some (1, 0) ∧
    ((BoardTracker.new 2 2).record_pos 1 (1, 0)).1.is_dead 1 = false ∧
    (((BoardTracker.new 2 2).record_pos 1 (1, 0)).2 = true ↔
      ((BoardTracker.new 2 2).get_cell_player (1, 0)).isSome = true) :=
  C6_record_pos (BoardTracker.new 2 2) 1 (1, 0) (by decide) (by decide) (by decide)

/-! ### C7: record_death -/

/-- C7: for every board and tracked player, record_death marks the player
dead; with clear set, every cell owned by that player becomes unoccupied;
cells owned by other players keep their owners (and without clear the
cells are untouched entirely), every player's latest recorded position is
unchanged, and no other player's dead flag changes. -/
theorem C7_record_death (t : BoardTracker) (pid : Nat) (clear : Bool)
    (htracked : pid < t.count_seen) :
    (t.record_death pid clear).is_dead pid = true ∧
    (clear = true → ∀ i, t.board.getD i none = some pid →
      (t.record_death pid clear).board.getD i none = none) ∧
    (∀ i q, q ≠ pid → t.board.getD i none = some q →
      (t.record_death pid clear).board.getD i none = some q) ∧
    (clear = false → (t.record_death pid clear).board = t.board) ∧
    (∀ q, (t.record_death pid clear).get_player_latest_pos q =
      t.get_player_latest_pos q) ∧
    (∀ q, q ≠ pid →
      (t.record_death pid clear).is_dead q = t.is_dead q) := by
  have hplayers : (t.record_death pid clear).players =
      updatePlayer t.players pid (fun p => ⟨p.latest_pos, true⟩) := by
    unfold record_death
    split <;> rfl
  have hboard : (t.record_death pid clear).board =
      if clear then t.board.map (fun c => if c = some pid then none else c)
      else t.board := by
    unfold record_death
    split <;> simp_all
  refine ⟨?_, ?_, ?_, ?_, ?_, ?_⟩
  · show ((t.record_death pid clear).players.getD pid fillerPlayer).dead = true
    rw [hplayers, updatePlayer_getD]
    simp
  · intro hc i hi
    rw [hboard, if_pos hc, getD_map_none _ _ _ (by simp), hi, if_pos rfl]
  · intro i q hq hi
    rw [hboard]
    split
    · rw [getD_map_none _ _ _ (by simp), hi, if_neg (by simpa using hq)]
    · exact hi
  · intro hc
    rw [hboard, hc]
    simp
  · intro q
    rw [get_player_latest_pos_eq_getD, get_player_latest_pos_eq_getD, hplayers,
      updatePlayer_getD]
    split
    · rename_i hqq
      subst hqq
      rfl
    · rfl
  · intro q hq
    show ((t.record_death pid clear).players.getD q fillerPlayer).dead = _
    rw [hplayers, updatePlayer_getD, if_neg hq]
    rfl

/-- C7 witness at a concrete input. -/
theorem C7_record_death_witness :
    (((BoardTracker.new 2 2).record_pos 0 (0, 0)).1.record_death 0 true).is_dead 0
      = true :=
  (C7_record_death ((BoardTracker.new 2 2).record_pos 0 (0, 0)).1 0 true
    (by decide)).1

/-! ### C10: dense materialization of player entries -/

theorem countP_replicate_set {α : Type} (p : α → Bool) (a b : α) (n : Nat) :
    (List.countP p ((List.replicate (n + 1) a).set n b)) =
      (if p a then n else 0) + (if p b then 1 else 0) := by
  induction n with
  | zero => simp [List.countP_cons]
  | succ n ih =>
    show List.countP p (a :: (List.replicate (n + 1) a).set n b) = _
    rw [List.countP_cons, ih]
    split <;> split <;> omega

/-- C10: player entries are materialized densely.  After record_pos or
record_death for id p, count_seen equals the maximum of its previous value
and p + 1; filler entries below p are alive with no recorded position; and
a single record_death for an unseen id p on a fresh board yields
count_seen p + 1, count_dead 1 and count_alive p. -/
theorem C10_dense_players :
    (∀ (t : BoardTracker) (pid : Nat) (pos : Nat × Nat),
      ((t.record_pos pid pos).1).count_seen = max t.count_seen (pid + 1)) ∧
    (∀ (t : BoardTracker) (pid : Nat) (c : Bool),
      (t.record_death pid c).count_seen = max t.count_seen (pid + 1)) ∧
    (∀ (t : BoardTracker) (pid : Nat) (pos : Nat × Nat) (q : Nat),
      t.count_seen ≤ q → q ≠ pid →
      ((t.record_pos pid pos).1).players.getD q fillerPlayer = fillerPlayer) ∧
    (∀ (t : BoardTracker) (pid : Nat) (c : Bool) (q : Nat),
      t.count_seen ≤ q → q ≠ pid →
      (t.record_death pid c).players.getD q fillerPlayer = fillerPlayer) ∧
    (∀ (w h pid : Nat) (c : Bool),
      ((BoardTracker.new w h).record_death pid c).count_seen = pid + 1 ∧
      ((BoardTracker.new w h).record_death pid c).count_dead = 1 ∧
      ((BoardTracker.new w h).record_death pid c).count_alive = pid) := by
  refine ⟨?_, ?_, ?_, ?_, ?_⟩
  · intro t pid pos
    rw [count_seen_eq, count_seen_eq, record_pos_players, updatePlayer_length]
  · intro t pid c
    rw [count_seen_eq, count_seen_eq, record_death_players, updatePlayer_length]
  · intro t pid pos q hq hne
    rw [record_pos_players, updatePlayer_getD, if_neg hne, getD_of_le _ _ _ hq]
  · intro t pid c q hq hne
    rw [record_death_players, updatePlayer_getD, if_neg hne, getD_of_le _ _ _ hq]
  · intro w h pid c
    have hens : ensurePlayers (BoardTracker.new w h).players pid =
        List.replicate (pid + 1) fillerPlayer := by
      unfold ensurePlayers
      simp [BoardTracker.new]
    have hgetD : (List.replicate (pid + 1) fillerPlayer).getD pid fillerPlayer =
        fillerPlayer := by
      rw [List.getD_eq_getElem?_getD, List.getElem?_replicate, if_pos (by omega)]
      rfl
    have hpl : ((BoardTracker.new w h).record_death pid c).players =
        (List.replicate (pid + 1) fillerPlayer).set pid ⟨none, true⟩ := by
      rw [record_death_players, updatePlayer_def, hens, hgetD]
      rfl
    refine ⟨?_, ?_, ?_⟩
    · rw [count_seen_eq, hpl]
      simp
    · unfold count_dead
      rw [hpl, countP_replicate_set]
      rfl
    · unfold count_alive
      rw [hpl, countP_replicate_set]
      rfl

/-- C10 witness at a concrete input (the theorem itself is hypothesis-free;
this instantiates its fresh-board conjunct). -/
theorem C10_dense_players_witness :
    ((BoardTracker.new 2 3).record_death 4 true).count_seen = 5 ∧
    ((BoardTracker.new 2 3).record_death 4 true).count_dead = 1 ∧
    ((BoardTracker.new 2 3).record_death 4 true).count_alive = 4 :=
  C10_dense_players.2.2.2.2 2 3 4 true

end BoardTracker

/-! ## Playout engine (src/playout.rs) -/

/-- Result of a playout (src/playout.rs, PlayoutResult). -/
structure PlayoutResult where
  beaten_players : Nat
  remaining_players : Nat
  survived_steps : Nat
  did_win : Bool
  did_die : Bool
deriving DecidableEq, Repr

/-- A movement policy (the Strategy trait object consumed by run_playout).
Its hidden mutable state — for example a pseudo-random generator seed — is
modelled as a Nat threaded through the step calls; step consumes the state
and the current board and yields the chosen direction and successor state.
The Duration argument of the Rust trait is a constant zero in run_playout
and is omitted. -/
structure Strat where
  state : Nat
  step : Nat → BoardTracker → Direction × Nat

/-- Step 1 of one tick of run_playout (new_pos_by_player): every currently
alive player's strategy is stepped on the pre-tick board and the player's
candidate next cell is computed from its latest recorded position; dead
players are skipped.  The source unwraps the latest position; the model
substitutes (0, 0) where the source would be unreachable (the theorems
carry the alive-implies-positioned hypothesis). -/
def tickCandidates (board : BoardTracker) :
    Nat → List Strat → List Strat × List (Option (Nat × Nat))
  | _, [] => ([], [])
  | pid, s :: rest =>
    let head :=
      if board.is_dead pid then (s, (none : Option (Nat × Nat)))
      else
        let r := s.step s.state board
        let old_pos := (board.get_player_latest_pos pid).getD (0, 0)
        ({ s with state := r.2 }, some (board.offset_pos old_pos r.1))
    let tail := tickCandidates board (pid + 1) rest
    (head.1 :: tail.1, head.2 :: tail.2)

/-- The start of step 2 of one tick (next_occupied_count before the bump
loop): occupancy of each cell as 0 or 1. -/
def initialCounts (board : BoardTracker) : List Nat :=
  board.occupied_mask.map (fun v => if v then 1 else 0)

/-- The bump loop of step 2: one increment per candidate move into a cell. -/
def bumpCounts (width : Nat) (counts : List Nat)
    (cands : List (Option (Nat × Nat))) : List Nat :=
  (cands.filterMap id).foldl
    (fun cs q => cs.set (q.2 * width + q.1) (cs.getD (q.2 * width + q.1) 0 + 1))
    counts

/-- Step 3 of one tick, one enumerated candidate: the move is accepted via
record_pos when the target cell's count is exactly 1, otherwise the player
dies via record_death. -/
def applyMove (width : Nat) (counts : List Nat) (clear : Bool)
    (b : BoardTracker) (m : Nat × Option (Nat × Nat)) : BoardTracker :=
  match m.2 with
  | none => b
  | some q =>
    if counts.getD (q.2 * width + q.1) 0 = 1 then (b.record_pos m.1 q).1
    else b.record_death m.1 clear

/-- Step 3 of one tick: process all players in id order. -/
def applyMoves (width : Nat) (counts : List Nat) (clear : Bool)
    (b : BoardTracker) (moves : List (Nat × Option (Nat × Nat))) : BoardTracker :=
  moves.foldl (applyMove width counts clear) b

/-- One full simulated tick of run_playout. -/
def playoutTick (clear : Bool) (board : BoardTracker) (strats : List Strat) :
    BoardTracker × List Strat :=
  let sc := tickCandidates board 0 strats
  let counts := bumpCounts board.width (initialCounts board) sc.2
  (applyMoves board.width counts clear board sc.2.enum, sc.1)

/-- The tick loop of run_playout, fuelled; none models running past the
loop into the step-overflow point, which the theorems show is unreachable
with max_steps fuel. -/
def playoutLoop (own_player_id max_steps : Nat) (clear : Bool) :
    Nat → Nat → BoardTracker → List Strat → Option PlayoutResult
  | 0, _, _, _ => none
  | fuel + 1, i_step, board, strats =>
    let count_dead_before_turn := board.count_dead
    let ts := playoutTick clear board strats
    let board2 := ts.1
    if board2.is_dead own_player_id then
      some ⟨count_dead_before_turn, board2.count_alive, i_step, false, true⟩
    else if board2.count_alive = 1 then
      some ⟨board2.count_dead, board2.count_alive, i_step + 1, true, false⟩
    else if max_steps ≤ i_step + 1 then
      some ⟨board2.count_dead, board2.count_alive, i_step + 1, false, false⟩
    else
      playoutLoop own_player_id max_steps clear fuel (i_step + 1) board2 ts.2

/-- run_playout (src/playout.rs).  The two entry assertions are modelled
by returning none. -/
def run_playout (board : BoardTracker) (strategies_by_player : List Strat)
    (own_player_id max_steps : Nat) (clear_on_death : Bool) :
    Option PlayoutResult :=
  if board.is_dead own_player_id then none
  else if max_steps = 0 then none
  else
    playoutLoop own_player_id max_steps clear_on_death max_steps 0 board
      strategies_by_player

/-! ### C8: the playout always terminates within the step cap -/

theorem playoutLoop_returns (own max_steps : Nat) (clear : Bool) :
    ∀ (fuel i_step : Nat) (board : BoardTracker) (strats : List Strat),
    i_step + fuel = max_steps → 0 < fuel →
    ∃ r, playoutLoop own max_steps clear fuel i_step board strats = some r ∧
      r.survived_steps ≤ max_steps := by
  intro fuel
  induction fuel with
  | zero => intro i_step board strats _ h; omega
  | succ fuel ih =>
    intro i_step board strats hsum _
    rw [playoutLoop]
    split
    · exact ⟨_, rfl, show i_step ≤ max_steps by omega⟩
    · split
      · exact ⟨_, rfl, show i_step + 1 ≤ max_steps by omega⟩
      · split
        · exact ⟨_, rfl, show i_step + 1 ≤ max_steps by omega⟩
        · rename_i hcap
          exact ih (i_step + 1) _ _ (by omega) (by omega)

/-- C8: for every initial board in which the own player is alive, every
alive tracked player has a recorded latest position, one strategy per
tracked player, and a positive step cap, run_playout terminates and
returns a PlayoutResult whose survived_steps is at most max_steps; the
step-overflow point after the tick loop is never reached. -/
theorem C8_playout_terminates (board : BoardTracker) (strats : List Strat)
    (own max_steps : Nat) (clear : Bool)
    (hown : board.is_dead own = false)
    (hpos : ∀ pid, pid < strats.length → board.is_dead pid = false →
      (board.get_player_latest_pos pid).isSome = true)
    (hcount : strats.length = board.count_seen)
    (hms : 0 < max_steps) :
    ∃ r, run_playout board strats own max_steps clear = some r ∧
      r.survived_steps ≤ max_steps := by
  unfold run_playout
  rw [hown]
  simp only [Bool.false_eq_true, if_false]
  rw [if_neg (by omega)]
  exact playoutLoop_returns own max_steps clear max_steps 0 board strats
    (by omega) hms

/-- A concrete two-player board used by the playout witnesses. -/
def witnessBoard : BoardTracker :=
  (((BoardTracker.new 3 3).record_pos 0 (0, 0)).1.record_pos 1 (2, 2)).1

/-- Concrete strategies used by the playout witnesses. -/
def witnessStrats : List Strat :=
  [⟨0, fun st _ => (Direction.right, st)⟩, ⟨0, fun st _ => (Direction.left, st)⟩]

/-- C8 witness at a concrete input. -/
theorem C8_playout_terminates_witness :
    ∃ r, run_playout witnessBoard witnessStrats 0 5 true = some r ∧
      r.survived_steps ≤ 5 :=
  C8_playout_terminates witnessBoard witnessStrats 0 5 true (by decide)
    (by decide) (by decide) (by decide)

/-! ### C9: the playout is deterministic -/

/-- C9: run_playout is deterministic.  Two runs given equal initial
boards, the same own player id, the same step cap and clear flag, and
equal strategy lists (each strategy a pure step function of its threaded
state — any randomness fixed by the state acting as seed — and the board)
produce equal results, and in particular results that agree in all five
PlayoutResult fields. -/
theorem C9_playout_deterministic (b1 b2 : BoardTracker) (s1 s2 : List Strat)
    (own1 own2 m1 m2 : Nat) (c1 c2 : Bool)
    (hb : b1 = b2) (hs : s1 = s2) (ho : own1 = own2) (hm : m1 = m2)
    (hc : c1 = c2) :
    run_playout b1 s1 own1 m1 c1 = run_playout b2 s2 own2 m2 c2 ∧
    (∀ r1 r2, run_playout b1 s1 own1 m1 c1 = some r1 →
      run_playout b2 s2 own2 m2 c2 = some r2 →
      r1.beaten_players = r2.beaten_players ∧
      r1.remaining_players = r2.remaining_players ∧
      r1.survived_steps = r2.survived_steps ∧
      r1.did_win = r2.did_win ∧
      r1.did_die = r2.did_die) := by
  subst hb hs ho hm hc
  refine ⟨rfl, ?_⟩
  intro r1 r2 h1 h2
  rw [h1] at h2
  cases h2
  exact ⟨rfl, rfl, rfl, rfl, rfl⟩

/-- C9 witness at a concrete input. -/
theorem C9_playout_deterministic_witness :
    run_playout witnessBoard witnessStrats 0 5 true =
      run_playout witnessBoard witnessStrats 0 5 true ∧
    (∀ r1 r2, run_playout witnessBoard witnessStrats 0 5 true = some r1 →
      run_playout witnessBoard witnessStrats 0 5 true = some r2 →
      r1.beaten_players = r2.beaten_players ∧
      r1.remaining_players = r2.remaining_players ∧
      r1.survived_steps = r2.survived_steps ∧
      r1.did_win = r2.did_win ∧
      r1.did_die = r2.did_die) :=
  C9_playout_deterministic witnessBoard witnessBoard witnessStrats witnessStrats
    0 0 5 5 true true rfl rfl rfl rfl rfl

/-! ## Infrastructure for the tick analysis (C1) -/

open BoardTracker

theorem list_eq_of_length_getD {α : Type} (l1 l2 : List α) (d : α)
    (hlen : l1.length = l2.length) (h : ∀ k, l1.getD k d = l2.getD k d) :
    l1 = l2 := by
  apply List.ext_getElem?
  intro n
  rcases Nat.lt_or_ge n l1.length with hn | hn
  · rw [getElem?_of_lt l1 n d hn, getElem?_of_lt l2 n d (by omega), h]
  · rw [List.getElem?_eq_none hn, List.getElem?_eq_none (by omega)]

theorem one_le_countP {α : Type} (p : α → Bool) (l : List α) (j : Nat) (b : α)
    (hj : l[j]? = some b) (hb : p b = true) : 1 ≤ l.countP p :=
  List.countP_pos_iff.mpr ⟨b, List.getElem?_mem hj, hb⟩

theorem two_le_countP {α : Type} (p : α → Bool) :
    ∀ (l : List α) (i j : Nat) (a b : α), i ≠ j → l[i]? = some a →
    l[j]? = some b → p a = true → p b = true → 2 ≤ l.countP p := by
  intro l
  induction l with
  | nil =>
    intro i j a b hij ha hb hpa hpb
    simp at ha
  | cons x t ih =>
    intro i j a b hij ha hb hpa hpb
    match i, j with
    | 0, 0 => exact absurd rfl hij
    | 0, j' + 1 =>
      have hax : x = a := by simpa using ha
      have h1 : 1 ≤ t.countP p :=
        one_le_countP p t j' b (by simpa using hb) hpb
      rw [List.countP_cons, if_pos (hax ▸ hpa)]
      omega
    | i' + 1, 0 =>
      have hbx : x = b := by simpa using hb
      have h1 : 1 ≤ t.countP p :=
        one_le_countP p t i' a (by simpa using ha) hpa
      rw [List.countP_cons, if_pos (hbx ▸ hpb)]
      omega
    | i' + 1, j' + 1 =>
      have h2 := ih i' j' a b (by omega) (by simpa using ha) (by simpa using hb)
        hpa hpb
      rw [List.countP_cons]
      omega

theorem updatePlayer_comm (l : List BoardTrackerPlayer) (i j : Nat)
    (f g : BoardTrackerPlayer → BoardTrackerPlayer) (hij : i ≠ j) :
    updatePlayer (updatePlayer l i f) j g =
      updatePlayer (updatePlayer l j g) i f := by
  apply list_eq_of_length_getD _ _ fillerPlayer
  · rw [updatePlayer_length, updatePlayer_length, updatePlayer_length,
      updatePlayer_length]
    omega
  · intro k
    rw [updatePlayer_getD, updatePlayer_getD, updatePlayer_getD, updatePlayer_getD,
      updatePlayer_getD, updatePlayer_getD]
    by_cases hkj : k = j <;> by_cases hki : k = i
    · exact absurd (hki.symm.trans hkj) hij
    · rw [if_pos hkj, if_pos hkj, if_neg hki, if_neg (fun hc : j = i => hij hc.symm)]
    · rw [if_neg hkj, if_pos hki, if_pos hki, if_neg hij]
    · rw [if_neg hkj, if_neg hki, if_neg hki, if_neg hkj]

theorem boardTracker_eq (t1 t2 : BoardTracker)
    (hw : t1.width = t2.width) (hh : t1.height = t2.height)
    (hb : t1.board = t2.board) (hp : t1.players = t2.players) : t1 = t2 := by
  cases t1
  cases t2
  simp_all

/-- A candidate targets cell A. -/
def targetsCell (w A : Nat) : Option (Nat × Nat) → Bool
  | some q => decide (q.2 * w + q.1 = A)
  | none => false

theorem applyMoves_nil (w : Nat) (counts : List Nat) (clear : Bool)
    (b : BoardTracker) : applyMoves w counts clear b [] = b := rfl

theorem applyMoves_cons (w : Nat) (counts : List Nat) (clear : Bool)
    (b : BoardTracker) (m : Nat × Option (Nat × Nat))
    (rest : List (Nat × Option (Nat × Nat))) :
    applyMoves w counts clear b (m :: rest) =
      applyMoves w counts clear (applyMove w counts clear b m) rest := rfl

theorem applyMove_width (w : Nat) (counts : List Nat) (clear : Bool)
    (b : BoardTracker) (m : Nat × Option (Nat × Nat)) :
    (applyMove w counts clear b m).width = b.width := by
  rcases m with ⟨k, c⟩
  rcases c with _ | q
  · rfl
  · unfold applyMove
    simp only
    split
    · rfl
    · exact record_death_width b k clear

theorem applyMove_height (w : Nat) (counts : List Nat) (clear : Bool)
    (b : BoardTracker) (m : Nat × Option (Nat × Nat)) :
    (applyMove w counts clear b m).height = b.height := by
  rcases m with ⟨k, c⟩
  rcases c with _ | q
  · rfl
  · unfold applyMove
    simp only
    split
    · rfl
    · exact record_death_height b k clear

theorem applyMove_board_length (w : Nat) (counts : List Nat) (clear : Bool)
    (b : BoardTracker) (m : Nat × Option (Nat × Nat)) :
    (applyMove w counts clear b m).board.length = b.board.length := by
  rcases m with ⟨k, c⟩
  rcases c with _ | q
  · rfl
  · unfold applyMove
    simp only
    split
    · rw [record_pos_board, List.length_set]
    · rw [record_death_board]
      split <;> simp

theorem applyMoves_width (w : Nat) (counts : List Nat) (clear : Bool) :
    ∀ (moves : List (Nat × Option (Nat × Nat))) (b : BoardTracker),
    (applyMoves w counts clear b moves).width = b.width := by
  intro moves
  induction moves with
  | nil => intro b; rfl
  | cons m rest ih =>
    intro b
    rw [applyMoves_cons, ih, applyMove_width]

theorem applyMoves_board_length (w : Nat) (counts : List Nat) (clear : Bool) :
    ∀ (moves : List (Nat × Option (Nat × Nat))) (b : BoardTracker),
    (applyMoves w counts clear b moves).board.length = b.board.length := by
  intro moves
  induction moves with
  | nil => intro b; rfl
  | cons m rest ih =>
    intro b
    rw [applyMoves_cons, ih, applyMove_board_length]

theorem applyMoves_players_frame (w : Nat) (counts : List Nat) (clear : Bool)
    (pid : Nat) :
    ∀ (moves : List (Nat × Option (Nat × Nat))) (b : BoardTracker),
    (∀ m ∈ moves, m.1 ≠ pid) →
    (applyMoves w counts clear b moves).players.getD pid fillerPlayer =
      b.players.getD pid fillerPlayer := by
  intro moves
  induction moves with
  | nil => intro b _; rfl
  | cons m rest ih =>
    intro b hm
    rw [applyMoves_cons, ih _ (fun x hx => hm x (List.mem_cons_of_mem m hx))]
    have hne : m.1 ≠ pid := hm m (List.mem_cons_self m rest)
    rcases m with ⟨k, c⟩
    rcases c with _ | q
    · rfl
    · unfold applyMove
      simp only
      split
      · rw [record_pos_players, updatePlayer_getD,
          if_neg (fun hc : pid = k => hne hc.symm)]
      · rw [record_death_players, updatePlayer_getD,
          if_neg (fun hc : pid = k => hne hc.symm)]

theorem applyMoves_cell_none (w : Nat) (counts : List Nat) (clear : Bool)
    (A : Nat) (hA : counts.getD A 0 ≠ 1) :
    ∀ (moves : List (Nat × Option (Nat × Nat))) (b : BoardTracker),
    b.width = w → b.board.getD A none = none →
    (applyMoves w counts clear b moves).board.getD A none = none := by
  intro moves
  induction moves with
  | nil => intro b _ hcell; exact hcell
  | cons m rest ih =>
    intro b hw hcell
    rw [applyMoves_cons]
    refine ih _ (by rw [applyMove_width, hw]) ?_
    rcases m with ⟨k, c⟩
    rcases c with _ | q
    · exact hcell
    · unfold applyMove
      simp only
      split
      · rename_i hacc
        have hne : q.2 * b.width + q.1 ≠ A := by
          rw [hw]
          intro hc
          rw [hc] at hacc
          exact hA hacc
        rw [record_pos_board, getD_set, if_neg (fun hc => hne hc.1), hcell]
      · rw [record_death_board]
        split
        · rw [getD_map_none _ _ _ (by simp), hcell]
          simp
        · exact hcell

theorem applyMoves_cell_some_frame (w : Nat) (counts : List Nat) (clear : Bool)
    (pid A : Nat) :
    ∀ (moves : List (Nat × Option (Nat × Nat))) (b : BoardTracker),
    b.width = w →
    (∀ m ∈ moves, m.1 ≠ pid) →
    (∀ m ∈ moves, ∀ r : Nat × Nat, m.2 = some r →
      counts.getD (r.2 * w + r.1) 0 = 1 → r.2 * w + r.1 ≠ A) →
    b.board.getD A none = some pid →
    (applyMoves w counts clear b moves).board.getD A none = some pid := by
  intro moves
  induction moves with
  | nil => intro b _ _ _ hcell; exact hcell
  | cons m rest ih =>
    intro b hw hne hexcl hcell
    rw [applyMoves_cons]
    refine ih _ (by rw [applyMove_width, hw])
      (fun x hx => hne x (List.mem_cons_of_mem m hx))
      (fun x hx => hexcl x (List.mem_cons_of_mem m hx)) ?_
    have hkne : m.1 ≠ pid := hne m (List.mem_cons_self m rest)
    rcases m with ⟨k, c⟩
    rcases c with _ | q
    · exact hcell
    · unfold applyMove
      simp only
      split
      · rename_i hacc
        have hqa : q.2 * w + q.1 ≠ A :=
          hexcl (k, some q) (List.mem_cons_self _ rest) q rfl hacc
        rw [record_pos_board, getD_set,
          if_neg (fun hc => hqa (by rw [← hw]; exact hc.1)), hcell]
      · rw [record_death_board]
        split
        · rw [getD_map_none _ _ _ (by simp), hcell,
            if_neg (fun hc : some pid = some k => hkne ((Option.some.inj hc).symm ▸ rfl))]
        · exact hcell

theorem getElem?_zero_eq_head {α : Type} (l : List α) (c : α)
    (h : l[0]? = some c) : ∃ rest, l = c :: rest := by
  cases l with
  | nil => simp at h
  | cons x t =>
    have hx : x = c := by simpa using h
    exact ⟨t, by rw [hx]⟩

theorem enumFrom_split {α : Type} :
    ∀ (j : Nat) (cands : List α) (c : α) (n : Nat), cands[j]? = some c →
    cands.enumFrom n =
      (cands.take j).enumFrom n ++
        (n + j, c) :: (cands.drop (j + 1)).enumFrom (n + j + 1) := by
  intro j
  induction j with
  | zero =>
    intro cands c n h
    obtain ⟨rest, rfl⟩ := getElem?_zero_eq_head cands c h
    simp [List.enumFrom_cons]
  | succ j ih =>
    intro cands c n h
    cases cands with
    | nil => simp at h
    | cons x t =>
      have ht : t[j]? = some c := by simpa using h
      rw [List.enumFrom_cons, ih t c (n + 1) ht]
      rw [List.take_cons (by omega), List.drop_succ_cons]
      show _ = List.enumFrom n (x :: List.take (j + 1 - 1) t) ++ _
      have hj1 : j + 1 - 1 = j := by omega
      rw [hj1, List.enumFrom_cons, List.cons_append]
      have e1 : n + 1 + j = n + (j + 1) := by omega
      rw [e1]

theorem mem_enumFrom_getElem? {α : Type} (l : List α) (n : Nat) (m : Nat × α)
    (h : m ∈ l.enumFrom n) :
    n ≤ m.1 ∧ m.1 < n + l.length ∧ l[m.1 - n]? = some m.2 := by
  rcases m with ⟨i, x⟩
  obtain ⟨h1, h2, h3⟩ := List.mem_enumFrom h
  refine ⟨h1, h2, ?_⟩
  rw [List.getElem?_eq_getElem (by omega), h3]

/-- Entries of the enumeration of a list are exactly its indexed elements. -/
theorem mem_enum_getElem? {α : Type} (l : List α) (m : Nat × α)
    (h : m ∈ l.enum) : l[m.1]? = some m.2 := by
  rw [List.enum_eq_enumFrom] at h
  have h3 := (mem_enumFrom_getElem? l 0 m h).2.2
  simpa using h3

theorem bumpCounts_fold_getD (w : Nat) :
    ∀ (poss : List (Nat × Nat)) (base : List Nat) (A : Nat), A < base.length →
    (poss.foldl
        (fun cs q => cs.set (q.2 * w + q.1) (cs.getD (q.2 * w + q.1) 0 + 1))
        base).getD A 0 =
      base.getD A 0 + poss.countP (fun q => decide (q.2 * w + q.1 = A)) := by
  intro poss
  induction poss with
  | nil =>
    intro base A hA
    simp
  | cons q rest ih =>
    intro base A hA
    rw [List.foldl_cons, ih _ _ (by rw [List.length_set]; exact hA),
      List.countP_cons, getD_set]
    by_cases hqa : q.2 * w + q.1 = A
    · rw [if_pos ⟨hqa, by omega⟩]
      simp [hqa]
      omega
    · rw [if_neg (fun hc => hqa hc.1)]
      simp [hqa]

theorem initialCounts_length (board : BoardTracker) :
    (initialCounts board).length = board.board.length := by
  simp [initialCounts, occupied_mask]

theorem initialCounts_getD (board : BoardTracker) (A : Nat)
    (hA : A < board.board.length) :
    (initialCounts board).getD A 0 =
      if (board.board.getD A none).isSome then 1 else 0 := by
  unfold initialCounts occupied_mask
  rw [List.map_map, List.getD_eq_getElem?_getD, List.getElem?_map,
    getElem?_of_lt board.board A none hA]
  rfl

/-- The post-tick occupancy count of a cell is its current occupancy (0 or
1) plus one per candidate move into it. -/
theorem counts_formula (board : BoardTracker) (cands : List (Option (Nat × Nat)))
    (A : Nat) (hA : A < board.board.length) :
    (bumpCounts board.width (initialCounts board) cands).getD A 0 =
      (if (board.board.getD A none).isSome then 1 else 0)
        + cands.countP (targetsCell board.width A) := by
  unfold bumpCounts
  rw [bumpCounts_fold_getD board.width _ _ A
      (by rw [initialCounts_length]; exact hA),
    initialCounts_getD board A hA, List.countP_filterMap]
  congr 1
  apply List.countP_congr
  intro c _
  rcases c with _ | q <;> simp [targetsCell]

theorem tickCandidates_length (board : BoardTracker) :
    ∀ (strats : List Strat) (n : Nat),
    ((tickCandidates board n strats).2).length = strats.length := by
  intro strats
  induction strats with
  | nil => intro n; rfl
  | cons s rest ih =>
    intro n
    show ((tickCandidates board n (s :: rest)).2).length = rest.length + 1
    rw [tickCandidates]
    simp only [List.length_cons]
    rw [ih (n + 1)]

theorem tickCandidates_inbounds (board : BoardTracker)
    (hw : 0 < board.width) (hh : 0 < board.height) :
    ∀ (strats : List Strat) (n : Nat) (c : Option (Nat × Nat)) (q : Nat × Nat),
    c ∈ (tickCandidates board n strats).2 → c = some q →
    q.1 < board.width ∧ q.2 < board.height := by
  intro strats
  induction strats with
  | nil =>
    intro n c q hc _
    simp [tickCandidates] at hc
  | cons s rest ih =>
    intro n c q hc hq
    rw [tickCandidates] at hc
    simp only [List.mem_cons] at hc
    rcases hc with hc | hc
    · subst hq
      revert hc
      split
      · intro hc
        exact absurd hc (by simp)
      · intro hc
        simp only at hc
        have hq2 := Option.some.inj hc
        subst hq2
        exact Direction.offset_pos_lt _ _ board.width board.height hw hh
    · exact ih (n + 1) c q hc hq

/-- A fold over pairwise commuting operations is invariant under
permutation of the operation list; commutation is only required on states
satisfying an invariant that the operations preserve. -/
theorem foldl_perm_invariant {α β : Type} (f : β → α → β) (Inv : β → Prop)
    (hpres : ∀ b a, Inv b → Inv (f b a)) :
    ∀ {l1 l2 : List α}, l1.Perm l2 →
    (∀ x ∈ l1, ∀ y ∈ l1, ∀ b, Inv b → f (f b x) y = f (f b y) x) →
    ∀ b, Inv b → l1.foldl f b = l2.foldl f b := by
  intro l1 l2 hperm
  induction hperm with
  | nil =>
    intro _ b _
    rfl
  | cons x p ih =>
    intro hcomm b hb
    rw [List.foldl_cons, List.foldl_cons]
    exact ih
      (fun u hu v hv => hcomm u (List.mem_cons_of_mem x hu) v (List.mem_cons_of_mem x hv))
      (f b x) (hpres b x hb)
  | swap x y l =>
    intro hcomm b hb
    rw [List.foldl_cons, List.foldl_cons, List.foldl_cons, List.foldl_cons]
    rw [hcomm y (by simp) x (by simp) b hb]
  | trans p1 p2 ih1 ih2 =>
    intro hcomm b hb
    rw [ih1 hcomm b hb,
      ih2 (fun u hu v hv => hcomm u (p1.mem_iff.mpr hu) v (p1.mem_iff.mpr hv)) b hb]

/-- Processing two distinct players commutes, provided accepted moves have
distinct target cells. -/
theorem applyMove_comm (w : Nat) (counts : List Nat) (clear : Bool)
    (x y : Nat × Option (Nat × Nat)) (b : BoardTracker)
    (hne : x.1 ≠ y.1)
    (hacc : ∀ p q : Nat × Nat, x.2 = some p → y.2 = some q →
      counts.getD (p.2 * w + p.1) 0 = 1 → counts.getD (q.2 * w + q.1) 0 = 1 →
      p.2 * w + p.1 ≠ q.2 * w + q.1) (hw : b.width = w) :
    applyMove w counts clear (applyMove w counts clear b x) y =
      applyMove w counts clear (applyMove w counts clear b y) x := by
  rcases x with ⟨i, ci⟩
  rcases y with ⟨j, cj⟩
  simp only at hne
  rcases ci with _ | p
  · rcases cj with _ | q <;> rfl
  · rcases cj with _ | q
    · rfl
    · simp only [applyMove]
      by_cases hp : counts.getD (p.2 * w + p.1) 0 = 1 <;>
        by_cases hq : counts.getD (q.2 * w + q.1) 0 = 1
      · -- both moves accepted: distinct target cells
        have hpq : p.2 * w + p.1 ≠ q.2 * w + q.1 := hacc p q rfl rfl hp hq
        simp only [if_pos hp, if_pos hq]
        apply boardTracker_eq
        · rfl
        · rfl
        · show (b.board.set (p.2 * b.width + p.1) (some i)).set
              (q.2 * b.width + q.1) (some j) = _
          rw [List.set_comm]
          · rfl
          · rw [hw]
            exact hpq
        · rw [record_pos_players, record_pos_players, record_pos_players,
            record_pos_players]
          exact updatePlayer_comm b.players i j _ _ hne
      · -- x accepted, y dies
        simp only [if_pos hp, if_neg hq]
        cases clear
        · apply boardTracker_eq
          · rfl
          · rfl
          · rfl
          · rw [record_death_players, record_pos_players, record_pos_players,
              record_death_players]
            exact updatePlayer_comm b.players i j _ _ hne
        · apply boardTracker_eq
          · rw [record_death_width]
            rfl
          · rw [record_death_height]
            rfl
          · have hL : ((b.record_pos i p).1.record_death j true).board =
                (b.board.set (p.2 * b.width + p.1) (some i)).map
                  (fun c => if c = some j then none else c) := by
              rw [record_death_board, if_pos rfl, record_pos_board]
            have hR : ((b.record_death j true).record_pos i p).1.board =
                (b.board.map (fun c => if c = some j then none else c)).set
                  (p.2 * b.width + p.1) (some i) := by
              rw [record_pos_board, record_death_width, record_death_board,
                if_pos rfl]
            rw [hL, hR, List.map_set]
            have hgi : (if (some i : Option Nat) = some j then (none : Option Nat)
                else some i) = some i := by
              rw [if_neg]
              intro hc
              exact hne (Option.some.inj hc)
            simp only [hgi]
          · rw [record_death_players, record_pos_players, record_pos_players,
              record_death_players]
            exact updatePlayer_comm b.players i j _ _ hne
      · -- x dies, y accepted
        simp only [if_neg hp, if_pos hq]
        cases clear
        · apply boardTracker_eq
          · rfl
          · rfl
          · rfl
          · rw [record_pos_players, record_death_players, record_death_players,
              record_pos_players]
            exact updatePlayer_comm b.players i j _ _ hne
        · apply boardTracker_eq
          · rw [record_death_width]
            rfl
          · rw [record_death_height]
            rfl
          · have hL : ((b.record_death i true).record_pos j q).1.board =
                (b.board.map (fun c => if c = some i then none else c)).set
                  (q.2 * b.width + q.1) (some j) := by
              rw [record_pos_board, record_death_width, record_death_board,
                if_pos rfl]
            have hR : ((b.record_pos j q).1.record_death i true).board =
                (b.board.set (q.2 * b.width + q.1) (some j)).map
                  (fun c => if c = some i then none else c) := by
              rw [record_death_board, if_pos rfl, record_pos_board]
            rw [hL, hR, List.map_set]
            have hgj : (if (some j : Option Nat) = some i then (none : Option Nat)
                else some j) = some j := by
              rw [if_neg]
              intro hc
              exact hne (Option.some.inj hc).symm
            simp only [hgj]
          · rw [record_pos_players, record_death_players, record_death_players,
              record_pos_players]
            exact updatePlayer_comm b.players i j _ _ hne
      · -- both die
        simp only [if_neg hp, if_neg hq]
        cases clear
        · apply boardTracker_eq
          · rfl
          · rfl
          · rfl
          · rw [record_death_players, record_death_players, record_death_players,
              record_death_players]
            exact updatePlayer_comm b.players i j _ _ hne
        · apply boardTracker_eq
          · rw [record_death_width, record_death_width, record_death_width,
              record_death_width]
          · rw [record_death_height, record_death_height, record_death_height,
              record_death_height]
          · rw [record_death_board, if_pos rfl, record_death_board, if_pos rfl,
              record_death_board, if_pos rfl, record_death_board, if_pos rfl,
              List.map_map, List.map_map]
            apply List.map_congr_left
            intro c _
            show (if (if c = some i then none else c) = some j then none
                else if c = some i then none else c) =
              (if (if c = some j then none else c) = some i then none
                else if c = some j then none else c)
            by_cases hci : c = some i
            · subst hci
              have h1 : (if (some i : Option Nat) = some i then (none : Option Nat)
                  else some i) = none := if_pos rfl
              have h2 : (if (some i : Option Nat) = some j then (none : Option Nat)
                  else some i) = some i := by
                rw [if_neg]
                intro hc
                exact hne (Option.some.inj hc)
              rw [h1, h2]
              have h3 : (if (none : Option Nat) = some j then (none : Option Nat)
                  else none) = none := by simp
              rw [h3, h1]
            · by_cases hcj : c = some j
              · subst hcj
                have h1 : (if (some j : Option Nat) = some i then (none : Option Nat)
                    else some j) = some j := by
                  rw [if_neg]
                  intro hc
                  exact hne (Option.some.inj hc).symm
                have h2 : (if (some j : Option Nat) = some j then (none : Option Nat)
                    else some j) = none := if_pos rfl
                rw [h1, h2]
                have h3 : (if (none : Option Nat) = some i then (none : Option Nat)
                    else none) = none := by simp
                rw [h3]
              · have h1 : (if c = some i then none else c) = c := if_neg hci
                have h2 : (if c = some j then none else c) = c := if_neg hcj
                rw [h1, h2, h1]
          · rw [record_death_players, record_death_players, record_death_players,
              record_death_players]
            exact updatePlayer_comm b.players i j _ _ hne


theorem mem_take_enumFrom {α : Type} (cands : List α) (iIdx : Nat) (m : Nat × α)
    (h : m ∈ (cands.take iIdx).enumFrom 0) :
    m.1 < iIdx ∧ cands[m.1]? = some m.2 := by
  obtain ⟨h1, h2, h3⟩ := mem_enumFrom_getElem? _ _ _ h
  rw [List.length_take] at h2
  have hlt : m.1 < iIdx := by omega
  refine ⟨hlt, ?_⟩
  have h4 : (List.take iIdx cands)[m.1]? = some m.2 := by simpa using h3
  rw [List.getElem?_take, if_pos hlt] at h4
  exact h4

theorem mem_drop_enumFrom {α : Type} (cands : List α) (iIdx : Nat) (m : Nat × α)
    (h : m ∈ (cands.drop (iIdx + 1)).enumFrom (iIdx + 1)) :
    iIdx + 1 ≤ m.1 ∧ cands[m.1]? = some m.2 := by
  obtain ⟨h1, h2, h3⟩ := mem_enumFrom_getElem? _ _ _ h
  refine ⟨h1, ?_⟩
  rw [List.getElem?_drop] at h3
  have he : iIdx + 1 + (m.1 - (iIdx + 1)) = m.1 := by omega
  rw [he] at h3
  exact h3

/-- Two distinct candidate entries targeting the same cell force its
post-tick count to at least 2. -/
theorem counts_ge_two (board : BoardTracker) (cands : List (Option (Nat × Nat)))
    (A i j : Nat) (p q : Nat × Nat) (hA : A < board.board.length)
    (hij : i ≠ j) (hi : cands[i]? = some (some p)) (hj : cands[j]? = some (some q))
    (hpA : p.2 * board.width + p.1 = A) (hqA : q.2 * board.width + q.1 = A) :
    2 ≤ (bumpCounts board.width (initialCounts board) cands).getD A 0 := by
  rw [counts_formula board cands A hA]
  have h2 : 2 ≤ cands.countP (targetsCell board.width A) :=
    two_le_countP _ cands i j (some p) (some q) hij hi hj
      (by simp [targetsCell, hpA]) (by simp [targetsCell, hqA])
  split <;> omega

/-- Characterization of a single player's post-tick state: its move is
applied exactly when its target count is 1, otherwise it is dead. -/
theorem tick_accept_char (board : BoardTracker) (cands : List (Option (Nat × Nat)))
    (clear : Bool) (hw : 0 < board.width) (hh : 0 < board.height)
    (hlen : board.board.length = board.width * board.height)
    (hinb : ∀ c ∈ cands, ∀ q : Nat × Nat, c = some q →
      q.1 < board.width ∧ q.2 < board.height)
    (i : Nat) (p : Nat × Nat) (hi : cands[i]? = some (some p)) :
    ((bumpCounts board.width (initialCounts board) cands).getD
        (p.2 * board.width + p.1) 0 = 1 →
      (applyMoves board.width (bumpCounts board.width (initialCounts board) cands)
          clear board cands.enum).board.getD (p.2 * board.width + p.1) none
        = some i ∧
      (applyMoves board.width (bumpCounts board.width (initialCounts board) cands)
          clear board cands.enum).players.getD i fillerPlayer
        = ⟨some p, false⟩) ∧
    ((bumpCounts board.width (initialCounts board) cands).getD
        (p.2 * board.width + p.1) 0 ≠ 1 →
      ((applyMoves board.width (bumpCounts board.width (initialCounts board) cands)
          clear board cands.enum).players.getD i fillerPlayer).dead = true) := by
  have hpin : p.1 < board.width ∧ p.2 < board.height :=
    hinb (some p) (List.getElem?_mem hi) p rfl
  have hA : p.2 * board.width + p.1 < board.board.length := by
    rw [hlen]
    exact cellIdx_lt _ _ _ _ hpin.1 hpin.2
  have hsplit : cands.enum =
      (cands.take i).enumFrom 0 ++
        (i, some p) :: (cands.drop (i + 1)).enumFrom (i + 1) := by
    rw [List.enum_eq_enumFrom, enumFrom_split i cands (some p) 0 hi]
    have h0 : 0 + i = i := by omega
    rw [h0]
  have hfold : ∀ (cts : List Nat),
      applyMoves board.width cts clear board cands.enum =
        applyMoves board.width cts clear
          (applyMove board.width cts clear
            (applyMoves board.width cts clear board ((cands.take i).enumFrom 0))
            (i, some p))
          ((cands.drop (i + 1)).enumFrom (i + 1)) := by
    intro cts
    rw [hsplit]
    unfold applyMoves
    rw [List.foldl_append, List.foldl_cons]
  constructor
  · intro hc
    rw [hfold]
    have hb1w : (applyMoves board.width
        (bumpCounts board.width (initialCounts board) cands) clear board
        ((cands.take i).enumFrom 0)).width = board.width :=
      applyMoves_width _ _ _ _ _
    have hb1len : (applyMoves board.width
        (bumpCounts board.width (initialCounts board) cands) clear board
        ((cands.take i).enumFrom 0)).board.length = board.board.length :=
      applyMoves_board_length _ _ _ _ _
    have hstep : applyMove board.width
        (bumpCounts board.width (initialCounts board) cands) clear
        (applyMoves board.width (bumpCounts board.width (initialCounts board) cands)
          clear board ((cands.take i).enumFrom 0)) (i, some p) =
        ((applyMoves board.width (bumpCounts board.width (initialCounts board) cands)
          clear board ((cands.take i).enumFrom 0)).record_pos i p).1 := by
      unfold applyMove
      simp only
      rw [if_pos hc]
    rw [hstep]
    constructor
    · apply applyMoves_cell_some_frame
      · rw [record_pos_width]
        exact hb1w
      · intro m hm
        have hge := (mem_drop_enumFrom cands i m hm).1
        omega
      · intro m hm r hr hr1
        intro hrA
        have hmem := mem_drop_enumFrom cands i m hm
        have hmne : m.1 ≠ i := by omega
        have hmr : cands[m.1]? = some (some r) := by rw [hmem.2, hr]
        have h2 := counts_ge_two board cands (p.2 * board.width + p.1) m.1 i r p
          hA hmne hmr hi hrA rfl
        omega
      · rw [record_pos_board, hb1w, getD_set,
          if_pos ⟨rfl, by rw [hb1len]; exact hA⟩]
    · rw [applyMoves_players_frame]
      · rw [record_pos_players, updatePlayer_getD, if_pos rfl]
      · intro m hm
        have hge := (mem_drop_enumFrom cands i m hm).1
        omega
  · intro hc
    rw [hfold]
    have hstep : applyMove board.width
        (bumpCounts board.width (initialCounts board) cands) clear
        (applyMoves board.width (bumpCounts board.width (initialCounts board) cands)
          clear board ((cands.take i).enumFrom 0)) (i, some p) =
        (applyMoves board.width (bumpCounts board.width (initialCounts board) cands)
          clear board ((cands.take i).enumFrom 0)).record_death i clear := by
      unfold applyMove
      simp only
      rw [if_neg hc]
    rw [hstep]
    rw [applyMoves_players_frame]
    · rw [record_death_players, updatePlayer_getD, if_pos rfl]
    · intro m hm
      have hge := (mem_drop_enumFrom cands i m hm).1
      omega

/-- C1: in a run_playout tick, the post-tick count of a cell is its
current occupancy plus one per candidate move into it; when two or more
distinct alive players choose candidate next cells that coincide on a
currently-empty cell, every one of them is marked dead that tick and the
cell remains unoccupied; more generally a player's move is accepted via
record_pos exactly when its target cell's post-tick count is exactly 1
(otherwise the player dies this tick); and the outcome is independent of
the order in which the players are processed. -/
theorem C1_collision_rule (board : BoardTracker) (strats : List Strat)
    (clear : Bool) (cands : List (Option (Nat × Nat))) (counts : List Nat)
    (board2 : BoardTracker)
    (hw : 0 < board.width) (hh : 0 < board.height)
    (hlen : board.board.length = board.width * board.height)
    (hcands : cands = (tickCandidates board 0 strats).2)
    (hcounts : counts = bumpCounts board.width (initialCounts board) cands)
    (hboard2 : board2 = (playoutTick clear board strats).1) :
    (∀ A, A < board.board.length →
      counts.getD A 0 = (if (board.board.getD A none).isSome then 1 else 0)
        + cands.countP (targetsCell board.width A)) ∧
    (∀ i j p, i ≠ j → cands[i]? = some (some p) → cands[j]? = some (some p) →
      board.board.getD (p.2 * board.width + p.1) none = none →
      board2.is_dead i = true ∧ board2.is_dead j = true ∧
      board2.board.getD (p.2 * board.width + p.1) none = none) ∧
    (∀ i p, cands[i]? = some (some p) →
      (counts.getD (p.2 * board.width + p.1) 0 = 1 →
        board2.get_player_latest_pos i = some p ∧ board2.is_dead i = false ∧
        board2.board.getD (p.2 * board.width + p.1) none = some i) ∧
      (counts.getD (p.2 * board.width + p.1) 0 ≠ 1 →
        board2.is_dead i = true)) ∧
    (∀ moves2, (cands.enum).Perm moves2 →
      applyMoves board.width counts clear board moves2 =
        applyMoves board.width counts clear board cands.enum) := by
  subst hcands
  subst hcounts
  have hb2 : board2 = applyMoves board.width
      (bumpCounts board.width (initialCounts board)
        (tickCandidates board 0 strats).2)
      clear board ((tickCandidates board 0 strats).2).enum := hboard2
  clear hboard2
  have hinb : ∀ c ∈ (tickCandidates board 0 strats).2, ∀ q : Nat × Nat,
      c = some q → q.1 < board.width ∧ q.2 < board.height :=
    fun c hc q hq => tickCandidates_inbounds board hw hh strats 0 c q hc hq
  refine ⟨?_, ?_, ?_, ?_⟩
  · intro A hA
    exact counts_formula board _ A hA
  · intro i j p hij hi hj hemp
    have hpin : p.1 < board.width ∧ p.2 < board.height :=
      hinb (some p) (List.getElem?_mem hi) p rfl
    have hA : p.2 * board.width + p.1 < board.board.length := by
      rw [hlen]
      exact cellIdx_lt _ _ _ _ hpin.1 hpin.2
    have hge2 := counts_ge_two board _ (p.2 * board.width + p.1) i j p p hA hij
      hi hj rfl rfl
    have hne1 : (bumpCounts board.width (initialCounts board)
        (tickCandidates board 0 strats).2).getD (p.2 * board.width + p.1) 0 ≠ 1 := by
      omega
    refine ⟨?_, ?_, ?_⟩
    · rw [hb2, is_dead_eq]
      exact (tick_accept_char board _ clear hw hh hlen hinb i p hi).2 hne1
    · rw [hb2, is_dead_eq]
      exact (tick_accept_char board _ clear hw hh hlen hinb j p hj).2 hne1
    · rw [hb2]
      exact applyMoves_cell_none board.width _ clear _ hne1 _ board rfl hemp
  · intro i p hi
    have hchar := tick_accept_char board _ clear hw hh hlen hinb i p hi
    constructor
    · intro hc
      have h1 := hchar.1 hc
      rw [hb2, get_player_latest_pos_eq_getD, is_dead_eq, h1.2]
      exact ⟨rfl, rfl, h1.1⟩
    · intro hc
      rw [hb2, is_dead_eq]
      exact hchar.2 hc
  · intro moves2 hperm
    refine (foldl_perm_invariant
      (applyMove board.width (bumpCounts board.width (initialCounts board)
        (tickCandidates board 0 strats).2) clear)
      (fun b => b.width = board.width)
      (fun b a hb => by
        show (applyMove _ _ _ b a).width = board.width
        rw [applyMove_width]
        exact hb)
      hperm ?_ board rfl).symm
    intro x hx y hy b hb
    have hx2 := mem_enum_getElem? _ x hx
    have hy2 := mem_enum_getElem? _ y hy
    by_cases hxy : x.1 = y.1
    · have h22 : x.2 = y.2 := by
        rw [hxy] at hx2
        rw [hx2] at hy2
        exact Option.some.inj hy2
      have hxy2 : x = y := by
        rcases x with ⟨x1, c1⟩
        rcases y with ⟨y1, c2⟩
        simp only at hxy h22
        rw [hxy, h22]
      rw [hxy2]
    · apply applyMove_comm board.width _ clear x y b hxy ?_ hb
      intro p' q' hxp hyq h1 h2
      intro heq
      have hqin : q'.1 < board.width ∧ q'.2 < board.height := by
        apply hinb (some q') _ q' rfl
        rw [← hyq]
        exact List.getElem?_mem hy2
      have hA2 : q'.2 * board.width + q'.1 < board.board.length := by
        rw [hlen]
        exact cellIdx_lt _ _ _ _ hqin.1 hqin.2
      have hge2 := counts_ge_two board _ (q'.2 * board.width + q'.1) x.1 y.1 p' q'
        hA2 hxy (by rw [hx2, hxp]) (by rw [hy2, hyq]) heq rfl
      omega

/-- C1 witness: the count formula at cell 0 of a concrete two-player tick. -/
theorem C1_collision_rule_witness :
    (bumpCounts witnessBoard.width (initialCounts witnessBoard)
        (tickCandidates witnessBoard 0 witnessStrats).2).getD 0 0 =
      (if (witnessBoard.board.getD 0 none).isSome then 1 else 0)
        + ((tickCandidates witnessBoard 0 witnessStrats).2).countP
            (targetsCell witnessBoard.width 0) :=
  ((C1_collision_rule witnessBoard witnessStrats true _ _ _ (by decide)
    (by decide) (by decide) rfl rfl rfl).1) 0 (by decide)

/-! ## Cell indexing and hop chains -/

/-- Flattened index of a position. -/
def cellIdx (width : Nat) (p : Nat × Nat) : Nat := p.2 * width + p.1

/-- Position of a flattened index; the source computes
(i % width, i / width). -/
def idxPos (width : Nat) (i : Nat) : Nat × Nat := (i % width, i / width)

theorem cellIdx_lt_size (w h : Nat) (p : Nat × Nat) (hx : p.1 < w) (hy : p.2 < h) :
    cellIdx w p < w * h := cellIdx_lt w h p.1 p.2 hx hy

theorem cellIdx_idxPos (w h i : Nat) (hw : 0 < w) (hi : i < w * h) :
    cellIdx w (idxPos w i) = i := by
  unfold cellIdx idxPos
  simp only
  rw [Nat.mul_comm]
  exact Nat.div_add_mod i w

theorem idxPos_cellIdx (w : Nat) (p : Nat × Nat) (hw : 0 < w) (hx : p.1 < w) :
    idxPos w (cellIdx w p) = p := by
  unfold cellIdx idxPos
  refine Prod.ext ?_ ?_
  · simp only
    rw [Nat.mul_comm p.2 w, Nat.mul_add_mod, Nat.mod_eq_of_lt hx]
  · simp only
    rw [Nat.mul_comm p.2 w, Nat.mul_add_div hw, Nat.div_eq_of_lt hx, Nat.add_zero]

theorem idxPos_inbounds (w h i : Nat) (hw : 0 < w) (hh : 0 < h) (hi : i < w * h) :
    (idxPos w i).1 < w ∧ (idxPos w i).2 < h := by
  constructor
  · exact Nat.mod_lt _ hw
  · unfold idxPos
    simp only
    rw [Nat.div_lt_iff_lt_mul hw]
    calc i < w * h := hi
      _ = h * w := Nat.mul_comm w h

/-- One toroidal hop between flattened cell indices. -/
def AdjI (size : Nat × Nat) (i j : Nat) : Prop :=
  ∃ d : Direction, j = cellIdx size.1 (d.offset_pos (idxPos size.1 i) size)

theorem AdjI_lt (w h i j : Nat) (hw : 0 < w) (hh : 0 < h)
    (hadj : AdjI (w, h) i j) : j < w * h := by
  obtain ⟨d, hd⟩ := hadj
  rw [hd]
  exact cellIdx_lt_size w h _ (Direction.offset_pos_lt d _ w h hw hh).1
    (Direction.offset_pos_lt d _ w h hw hh).2

theorem AdjI_symm (w h i j : Nat) (hw : 0 < w) (hh : 0 < h) (hi : i < w * h)
    (hadj : AdjI (w, h) i j) : AdjI (w, h) j i := by
  obtain ⟨d, hd⟩ := hadj
  have hin := idxPos_inbounds w h i hw hh hi
  have hoff := Direction.offset_pos_lt d (idxPos w i) w h hw hh
  have hrt : d.reverse.offset_pos (d.offset_pos (idxPos w i) (w, h)) (w, h)
      = idxPos w i := by
    have h2 := Direction.C2_offset_reverse_roundtrip w h (idxPos w i).1 (idxPos w i).2
      d hw hh hin.1 hin.2
    simpa using h2
  refine ⟨d.reverse, ?_⟩
  rw [hd, idxPos_cellIdx w _ hw hoff.1, hrt, cellIdx_idxPos w h i hw hi]

/-- A chain of n hops of the relation R, extended at the front. -/
inductive Chain (R : Nat → Nat → Prop) : Nat → Nat → Nat → Prop where
  | refl (a : Nat) : Chain R 0 a a
  | step {n a b c : Nat} : R a b → Chain R n b c → Chain R (n + 1) a c

theorem Chain.snoc {R : Nat → Nat → Prop} :
    ∀ {n a b c : Nat}, Chain R n a b → R b c → Chain R (n + 1) a c := by
  intro n a b c hch
  induction hch with
  | refl a => intro h; exact Chain.step h (Chain.refl _)
  | step hr hch ih => intro h; exact Chain.step hr (ih h)

theorem Chain.unsnoc {R : Nat → Nat → Prop} :
    ∀ {n a c : Nat}, Chain R (n + 1) a c → ∃ b, Chain R n a b ∧ R b c := by
  intro n
  induction n with
  | zero =>
    intro a c hch
    cases hch with
    | step hr hch2 =>
      cases hch2 with
      | refl => exact ⟨a, Chain.refl a, hr⟩
  | succ n ih =>
    intro a c hch
    cases hch with
    | step hr hch2 =>
      obtain ⟨b, hb1, hb2⟩ := ih hch2
      exact ⟨b, Chain.step hr hb1, hb2⟩

theorem Chain.append {R : Nat → Nat → Prop} :
    ∀ (m : Nat) {n a b c : Nat}, Chain R m a b → Chain R n b c →
    Chain R (m + n) a c := by
  intro m
  induction m with
  | zero =>
    intro n a b c h1 h2
    cases h1 with
    | refl => simpa using h2
  | succ m ih =>
    intro n a b c h1 h2
    cases h1 with
    | step hr hch =>
      have h3 := ih hch h2
      have he : m + 1 + n = (m + n) + 1 := by omega
      rw [he]
      exact Chain.step hr h3

theorem countP_set_lt {α : Type} (p : α → Bool) :
    ∀ (l : List α) (i : Nat) (a d : α), i < l.length →
    (l.set i a).countP p + (if p (l.getD i d) then 1 else 0) =
      l.countP p + (if p a then 1 else 0) := by
  intro l
  induction l with
  | nil =>
    intro i a d hi
    simp at hi
  | cons x t ih =>
    intro i a d hi
    cases i with
    | zero =>
      show (a :: t).countP p + _ = _
      rw [List.countP_cons, List.countP_cons]
      show _ + (if p x then 1 else 0) = _
      omega
    | succ i =>
      show (x :: t.set i a).countP p + _ = _
      rw [List.countP_cons, List.countP_cons]
      have := ih i a d (by simpa using hi)
      show _ + (if p ((x :: t).getD (i + 1) d) then 1 else 0) = _
      have hg : (x :: t).getD (i + 1) d = t.getD i d := rfl
      rw [hg]
      omega

theorem sum_map_set_lt {α : Type} (f : α → Nat) :
    ∀ (l : List α) (i : Nat) (a d : α), i < l.length →
    ((l.set i a).map f).sum + f (l.getD i d) = (l.map f).sum + f a := by
  intro l
  induction l with
  | nil =>
    intro i a d hi
    simp at hi
  | cons x t ih =>
    intro i a d hi
    cases i with
    | zero =>
      show (f a + (t.map f).sum) + f x = (f x + (t.map f).sum) + f a
      omega
    | succ i =>
      show (f x + ((t.set i a).map f).sum) + f ((x :: t).getD (i + 1) d) = _
      have hg : (x :: t).getD (i + 1) d = t.getD i d := rfl
      rw [hg]
      have := ih i a d (by simpa using hi)
      show _ = (f x + (t.map f).sum) + f a
      omega

/-! ## Reachability flood fill (src/reachability.rs) -/

/-- One neighbor relaxation of the flood fill: mark and enqueue the
neighbor when it is unvisited and not blocked by the mask. -/
def reachRelax (size : Nat × Nat) (occupied_mask : List Bool) (current : Nat)
    (st : List Bool × List Nat) (dir : Direction) : List Bool × List Nat :=
  let new_i := cellIdx size.1 (dir.offset_pos (idxPos size.1 current) size)
  if !(st.1.getD new_i false) && !(occupied_mask.getD new_i false) then
    (st.1.set new_i true, st.2 ++ [new_i])
  else st

/-- The worklist loop of calculate_reachable, fuelled. -/
def reachLoop (size : Nat × Nat) (occupied_mask : List Bool) :
    Nat → List Bool × List Nat → List Bool
  | 0, st => st.1
  | fuel + 1, st =>
    match h : st.2 with
    | [] => st.1
    | current :: rest =>
      reachLoop size occupied_mask fuel
        (Direction.all_directions.foldl (reachRelax size occupied_mask current)
          (st.1, rest))

/-- calculate_reachable (src/reachability.rs): flood fill from the start
cell, which is marked unconditionally; the loop fuel strictly dominates
the loop measure, as the lemmas below show, so the queue always drains. -/
def calculate_reachable (size : Nat × Nat) (occupied_mask : List Bool)
    (start_pos : Nat × Nat) : List Bool :=
  let start_i := cellIdx size.1 start_pos
  let reachable := (List.replicate (size.1 * size.2) false).set start_i true
  reachLoop size occupied_mask (2 * (size.1 * size.2) + 1) (reachable, [start_i])

/-- One hop of the flood fill: a toroidal step into a mask-free cell. -/
def reachAdj (size : Nat × Nat) (mask : List Bool) (a b : Nat) : Prop :=
  AdjI size a b ∧ mask.getD b false = false

/-- The strictly decreasing loop measure of the flood fill. -/
def reachMeasure (st : List Bool × List Nat) : Nat :=
  2 * st.1.countP (fun v => !v) + st.2.length

/-- Invariant of the flood fill worklist loop. -/
structure ReachInv (w h : Nat) (mask : List Bool) (s : Nat)
    (st : List Bool × List Nat) : Prop where
  len : st.1.length = w * h
  start_marked : st.1.getD s false = true
  queue_bounds : ∀ j ∈ st.2, j < w * h ∧ st.1.getD j false = true
  sound : ∀ i, st.1.getD i false = true →
    i = s ∨ ∃ m, Chain (reachAdj (w, h) mask) (m + 1) s i
  idle : ∀ i, st.1.getD i false = true → i ∉ st.2 → ∀ d : Direction,
    mask.getD (cellIdx w (d.offset_pos (idxPos w i) (w, h))) false = false →
    st.1.getD (cellIdx w (d.offset_pos (idxPos w i) (w, h))) false = true

/-- Invariant holding while the four neighbors of the popped cell are
being processed; D is the list of already processed directions. -/
structure ReachMid (w h : Nat) (mask : List Bool) (s cur : Nat)
    (D : List Direction) (st : List Bool × List Nat) : Prop where
  len : st.1.length = w * h
  start_marked : st.1.getD s false = true
  queue_bounds : ∀ j ∈ st.2, j < w * h ∧ st.1.getD j false = true
  sound : ∀ i, st.1.getD i false = true →
    i = s ∨ ∃ m, Chain (reachAdj (w, h) mask) (m + 1) s i
  cur_marked : st.1.getD cur false = true
  cur_lt : cur < w * h
  idle2 : ∀ i, st.1.getD i false = true → i ∉ st.2 → i ≠ cur → ∀ d : Direction,
    mask.getD (cellIdx w (d.offset_pos (idxPos w i) (w, h))) false = false →
    st.1.getD (cellIdx w (d.offset_pos (idxPos w i) (w, h))) false = true
  done : ∀ d ∈ D,
    mask.getD (cellIdx w (d.offset_pos (idxPos w cur) (w, h))) false = false →
    st.1.getD (cellIdx w (d.offset_pos (idxPos w cur) (w, h))) false = true

theorem getD_set_true_mono (l : List Bool) (j i : Nat)
    (h : l.getD i false = true) : (l.set j true).getD i false = true := by
  rw [getD_set]
  split
  · rfl
  · exact h

theorem reachRelax_step (w h : Nat) (mask : List Bool) (s cur : Nat)
    (D : List Direction) (st : List Bool × List Nat) (d : Direction)
    (hw : 0 < w) (hh : 0 < h)
    (hmid : ReachMid w h mask s cur D st) :
    ReachMid w h mask s cur (D ++ [d]) (reachRelax (w, h) mask cur st d) ∧
    reachMeasure (reachRelax (w, h) mask cur st d) ≤ reachMeasure st := by
  unfold reachRelax
  simp only
  set new_i := cellIdx w (d.offset_pos (idxPos w cur) (w, h)) with hnew
  have hnewlt : new_i < w * h := by
    rw [hnew]
    exact cellIdx_lt_size w h _ (Direction.offset_pos_lt d _ w h hw hh).1
      (Direction.offset_pos_lt d _ w h hw hh).2
  split
  · rename_i hguard
    have hunmarked : st.1.getD new_i false = false := by
      rcases hb : st.1.getD new_i false
      · rfl
      · rw [hb] at hguard
        simp at hguard
    have hfree : mask.getD new_i false = false := by
      rcases hb : mask.getD new_i false
      · rfl
      · rw [hb] at hguard
        simp at hguard
    have hadj : AdjI (w, h) cur new_i := ⟨d, hnew⟩
    have hradj : reachAdj (w, h) mask cur new_i := ⟨hadj, hfree⟩
    have hmark : ∀ i, st.1.getD i false = true →
        (st.1.set new_i true).getD i false = true :=
      fun i hi => getD_set_true_mono st.1 new_i i hi
    have hnewmarked : (st.1.set new_i true).getD new_i false = true := by
      rw [getD_set, if_pos ⟨rfl, by rw [hmid.len]; exact hnewlt⟩]
    refine ⟨⟨?_, ?_, ?_, ?_, ?_, ?_, ?_, ?_⟩, ?_⟩
    · rw [List.length_set]
      exact hmid.len
    · exact hmark s hmid.start_marked
    · intro j hj
      simp only [List.mem_append, List.mem_singleton] at hj
      rcases hj with hj | hj
      · obtain ⟨h1, h2⟩ := hmid.queue_bounds j hj
        exact ⟨h1, hmark j h2⟩
      · subst hj
        exact ⟨hnewlt, hnewmarked⟩
    · intro i hi
      by_cases hin : i = new_i
      · subst hin
        rcases hmid.sound cur hmid.cur_marked with hcur | ⟨m, hm⟩
        · subst hcur
          exact Or.inr ⟨0, Chain.step hradj (Chain.refl _)⟩
        · exact Or.inr ⟨m + 1, Chain.snoc hm hradj⟩
      · have hold : st.1.getD i false = true := by
          rw [getD_set] at hi
          rcases Decidable.em (new_i = i ∧ new_i < st.1.length) with hc | hc
          · exact absurd hc.1 (fun hc1 => hin hc1.symm)
          · rw [if_neg hc] at hi
            exact hi
        exact hmid.sound i hold
    · exact hmark cur hmid.cur_marked
    · exact hmid.cur_lt
    · intro i hi hqi hic d2 hfree2
      have hine : i ≠ new_i := by
        intro hc
        apply hqi
        rw [hc]
        simp
      have hold : st.1.getD i false = true := by
        rw [getD_set] at hi
        rcases Decidable.em (new_i = i ∧ new_i < st.1.length) with hc | hc
        · exact absurd hc.1 (fun hc1 => hine hc1.symm)
        · rw [if_neg hc] at hi
          exact hi
      have hqi2 : i ∉ st.2 := fun hc => hqi (by simp [hc])
      exact hmark _ (hmid.idle2 i hold hqi2 hic d2 hfree2)
    · intro d2 hd2 hfree2
      simp only [List.mem_append, List.mem_singleton] at hd2
      rcases hd2 with hd2 | hd2
      · exact hmark _ (hmid.done d2 hd2 hfree2)
      · subst hd2
        exact hnewmarked
    · unfold reachMeasure
      simp only [List.length_append, List.length_singleton]
      have hcount := countP_set_lt (fun v => !v) st.1 new_i true false
        (by rw [hmid.len]; exact hnewlt)
      rw [hunmarked] at hcount
      simp at hcount
      omega
  · rename_i hguard
    refine ⟨⟨hmid.len, hmid.start_marked, hmid.queue_bounds, hmid.sound,
      hmid.cur_marked, hmid.cur_lt, hmid.idle2, ?_⟩, Nat.le_refl _⟩
    intro d2 hd2 hfree2
    simp only [List.mem_append, List.mem_singleton] at hd2
    rcases hd2 with hd2 | hd2
    · exact hmid.done d2 hd2 hfree2
    · subst hd2
      rcases hb : st.1.getD new_i false
      · exfalso
        apply hguard
        rw [hb, hfree2]
        rfl
      · exact hb ▸ rfl

theorem reachRelax_fold (w h : Nat) (mask : List Bool) (s cur : Nat)
    (hw : 0 < w) (hh : 0 < h) :
    ∀ (dirs : List Direction) (D : List Direction) (st : List Bool × List Nat),
    ReachMid w h mask s cur D st →
    ReachMid w h mask s cur (D ++ dirs)
      (dirs.foldl (reachRelax (w, h) mask cur) st) ∧
    reachMeasure (dirs.foldl (reachRelax (w, h) mask cur) st) ≤ reachMeasure st := by
  intro dirs
  induction dirs with
  | nil =>
    intro D st hmid
    rw [List.foldl_nil]
    constructor
    · simpa using hmid
    · exact Nat.le_refl _
  | cons d rest ih =>
    intro D st hmid
    rw [List.foldl_cons]
    obtain ⟨hmid2, hle2⟩ := reachRelax_step w h mask s cur D st d hw hh hmid
    obtain ⟨hmid3, hle3⟩ := ih (D ++ [d]) _ hmid2
    constructor
    · have he : D ++ d :: rest = (D ++ [d]) ++ rest := by simp
      rw [he]
      exact hmid3
    · omega

theorem reachPop (w h : Nat) (mask : List Bool) (s cur : Nat)
    (rest : List Nat) (R : List Bool)
    (hw : 0 < w) (hh : 0 < h)
    (hinv : ReachInv w h mask s (R, cur :: rest)) :
    ReachInv w h mask s
      (Direction.all_directions.foldl (reachRelax (w, h) mask cur) (R, rest)) ∧
    reachMeasure
        (Direction.all_directions.foldl (reachRelax (w, h) mask cur) (R, rest))
      < reachMeasure (R, cur :: rest) := by
  have hcur := hinv.queue_bounds cur (by simp)
  have hmid0 : ReachMid w h mask s cur [] (R, rest) := by
    refine ⟨hinv.len, hinv.start_marked, ?_, hinv.sound, hcur.2, hcur.1, ?_, ?_⟩
    · intro j hj
      exact hinv.queue_bounds j (by simp [hj])
    · intro i hi hqi hic d hfree
      refine hinv.idle i hi ?_ d hfree
      intro hc
      simp only [List.mem_cons] at hc
      rcases hc with hc | hc
      · exact hic hc
      · exact hqi hc
    · intro d hd
      simp at hd
  obtain ⟨hmid, hle⟩ := reachRelax_fold w h mask s cur hw hh
    Direction.all_directions [] (R, rest) hmid0
  constructor
  · refine ⟨hmid.len, hmid.start_marked, hmid.queue_bounds, hmid.sound, ?_⟩
    intro i hi hqi d hfree
    by_cases hic : i = cur
    · subst hic
      refine hmid.done d ?_ hfree
      cases d <;> simp [Direction.all_directions]
    · exact hmid.idle2 i hi hqi hic d hfree
  · have h1 : reachMeasure (R, rest) < reachMeasure (R, cur :: rest) := by
      unfold reachMeasure
      simp only [List.length_cons]
      omega
    omega

theorem reachLoop_correct (w h : Nat) (mask : List Bool) (s : Nat)
    (hw : 0 < w) (hh : 0 < h) :
    ∀ (fuel : Nat) (st : List Bool × List Nat),
    ReachInv w h mask s st → reachMeasure st < fuel →
    ∀ i, (reachLoop (w, h) mask fuel st).getD i false = true ↔
      (i = s ∨ ∃ m, Chain (reachAdj (w, h) mask) (m + 1) s i) := by
  intro fuel
  induction fuel with
  | zero =>
    intro st _ hlt
    omega
  | succ fuel ih =>
    intro st hinv hlt i
    rcases st with ⟨R, Q⟩
    rcases hq : Q with _ | ⟨cur, rest⟩
    · subst hq
      have hunfold : reachLoop (w, h) mask (fuel + 1) (R, []) = R := rfl
      rw [hunfold]
      constructor
      · exact hinv.sound i
      · intro hcase
        have hall : ∀ (m j : Nat), Chain (reachAdj (w, h) mask) m s j →
            R.getD j false = true := by
          intro m
          induction m with
          | zero =>
            intro j hch
            cases hch
            exact hinv.start_marked
          | succ m ihm =>
            intro j hch
            obtain ⟨b, hb1, hb2⟩ := Chain.unsnoc hch
            have hbm := ihm b hb1
            obtain ⟨⟨d, hd⟩, hfree⟩ := hb2
            have := hinv.idle b hbm (by simp) d (by rw [← hd]; exact hfree)
            rw [← hd] at this
            exact this
        rcases hcase with hcase | ⟨m, hch⟩
        · subst hcase
          exact hinv.start_marked
        · exact hall (m + 1) i hch
    · subst hq
      obtain ⟨hinv2, hlt2⟩ := reachPop w h mask s cur rest R hw hh hinv
      have hunfold : reachLoop (w, h) mask (fuel + 1) (R, cur :: rest) =
          reachLoop (w, h) mask fuel
            (Direction.all_directions.foldl (reachRelax (w, h) mask cur)
              (R, rest)) := rfl
      rw [hunfold]
      exact ih _ hinv2 (by omega) i

theorem calculate_reachable_correct (w h : Nat) (mask : List Bool)
    (sp : Nat × Nat) (hw : 0 < w) (hh : 0 < h)
    (hsx : sp.1 < w) (hsy : sp.2 < h) :
    ∀ i, (calculate_reachable (w, h) mask sp).getD i false = true ↔
      (i = cellIdx w sp ∨
        ∃ m, Chain (reachAdj (w, h) mask) (m + 1) (cellIdx w sp) i) := by
  have hslt : cellIdx w sp < w * h := cellIdx_lt_size w h sp hsx hsy
  have hn1 : 0 < w * h := by positivity
  have hstart : ((List.replicate (w * h) false).set (cellIdx w sp) true).getD
      (cellIdx w sp) false = true := by
    rw [getD_set, if_pos ⟨rfl, by simpa using hslt⟩]
  have hinv : ReachInv w h mask (cellIdx w sp)
      ((List.replicate (w * h) false).set (cellIdx w sp) true, [cellIdx w sp]) := by
    refine ⟨?_, hstart, ?_, ?_, ?_⟩
    · simp
    · intro j hj
      simp only [List.mem_singleton] at hj
      subst hj
      exact ⟨hslt, hstart⟩
    · intro i hi
      rw [getD_set] at hi
      rcases Decidable.em (cellIdx w sp = i ∧
          cellIdx w sp < (List.replicate (w * h) false).length) with hc | hc
      · exact Or.inl hc.1.symm
      · rw [if_neg hc] at hi
        rcases Nat.lt_or_ge i ((List.replicate (w * h) false).length) with hil | hil
        · rw [List.getD_eq_getElem?_getD, List.getElem?_replicate,
            if_pos (by simpa using hil)] at hi
          simp at hi
        · rw [getD_of_le _ _ _ hil] at hi
          simp at hi
    · intro i hi hqi d hfree
      exfalso
      apply hqi
      rw [getD_set] at hi
      rcases Decidable.em (cellIdx w sp = i ∧
          cellIdx w sp < (List.replicate (w * h) false).length) with hc | hc
      · rw [← hc.1]
        simp
      · rw [if_neg hc] at hi
        rcases Nat.lt_or_ge i ((List.replicate (w * h) false).length) with hil | hil
        · rw [List.getD_eq_getElem?_getD, List.getElem?_replicate,
            if_pos (by simpa using hil)] at hi
          simp at hi
        · rw [getD_of_le _ _ _ hil] at hi
          simp at hi
  have hmeas : reachMeasure
      ((List.replicate (w * h) false).set (cellIdx w sp) true, [cellIdx w sp])
      < 2 * (w * h) + 1 := by
    unfold reachMeasure
    simp only [List.length_singleton]
    have hcount := countP_set_lt (fun v => !v) (List.replicate (w * h) false)
      (cellIdx w sp) true false (by simpa using hslt)
    have hrep : (List.replicate (w * h) false).countP (fun v => !v) = w * h := by
      rw [List.countP_replicate]
      simp
    have hget : (List.replicate (w * h) false).getD (cellIdx w sp) false = false := by
      rw [List.getD_eq_getElem?_getD, List.getElem?_replicate,
        if_pos (by simpa using hslt)]
      rfl
    rw [hget, hrep] at hcount
    simp at hcount
    omega
  exact reachLoop_correct w h mask (cellIdx w sp) hw hh (2 * (w * h) + 1) _
    hinv hmeas

/-- C4 counterexample to the claim as frozen: with the start cell itself
blocked by the mask, the start cell is both masked and marked reachable,
so the conjunct that a masked cell is never marked reachable fails. -/
theorem C4_counterexample :
    ¬ (∀ i, ([true, false] : List Bool).getD i false = true →
        (calculate_reachable (2, 1) [true, false] (0, 0)).getD i false = false) := by
  intro hclaim
  have h0 := hclaim 0 (by decide)
  exact absurd h0 (by decide)

/-- C4 (amended): the start cell is always marked reachable, every
non-start cell blocked by the mask is never marked reachable, and a
non-start cell is marked reachable exactly when a toroidal 4-connected
path from the start reaches it whose cells after the start are all
mask-free. -/
theorem C4_reachability (w h : Nat) (mask : List Bool) (sp : Nat × Nat)
    (hw : 0 < w) (hh : 0 < h) (hlen : mask.length = w * h)
    (hsx : sp.1 < w) (hsy : sp.2 < h) :
    (calculate_reachable (w, h) mask sp).getD (cellIdx w sp) false = true ∧
    (∀ i, i ≠ cellIdx w sp → mask.getD i false = true →
      (calculate_reachable (w, h) mask sp).getD i false = false) ∧
    (∀ i, i ≠ cellIdx w sp →
      ((calculate_reachable (w, h) mask sp).getD i false = true ↔
        ∃ m, Chain (reachAdj (w, h) mask) (m + 1) (cellIdx w sp) i)) := by
  have hmaster := calculate_reachable_correct w h mask sp hw hh hsx hsy
  refine ⟨?_, ?_, ?_⟩
  · exact (hmaster (cellIdx w sp)).mpr (Or.inl rfl)
  · intro i hi hmask
    rcases hb : (calculate_reachable (w, h) mask sp).getD i false
    · rfl
    · exfalso
      rcases (hmaster i).mp hb with hc | ⟨m, hch⟩
      · exact hi hc
      · obtain ⟨b, _, hb2⟩ := Chain.unsnoc hch
        rw [hb2.2] at hmask
        exact Bool.false_ne_true hmask
  · intro i hi
    rw [hmaster i]
    constructor
    · intro hc
      rcases hc with hc | hc
      · exact absurd hc hi
      · exact hc
    · exact Or.inr

/-- C4 witness at a concrete input: a 2 by 2 board with one blocked
non-start cell. -/
theorem C4_reachability_witness :
    (calculate_reachable (2, 2) [false, false, false, true] (0, 0)).getD
      (cellIdx 2 (0, 0)) false = true ∧
    (∀ i, i ≠ cellIdx 2 (0, 0) →
      ([false, false, false, true] : List Bool).getD i false = true →
      (calculate_reachable (2, 2) [false, false, false, true] (0, 0)).getD i false
        = false) ∧
    (∀ i, i ≠ cellIdx 2 (0, 0) →
      ((calculate_reachable (2, 2) [false, false, false, true] (0, 0)).getD i false
          = true ↔
        ∃ m, Chain (reachAdj (2, 2) [false, false, false, true]) (m + 1)
          (cellIdx 2 (0, 0)) i)) :=
  C4_reachability 2 2 [false, false, false, true] (0, 0) (by decide) (by decide)
    (by decide) (by decide) (by decide)

/-! ## Distance field (src/distance.rs) -/

/-- One neighbor relaxation of the distance BFS: write the improved
distance and enqueue.  The usize::MAX sentinel of the source is modelled
as none, which any finite distance improves. -/
def distRelax (size : Nat × Nat) (current cur : Nat)
    (st : List (Option Nat) × List Nat) (dir : Direction) :
    List (Option Nat) × List Nat :=
  let new_i := cellIdx size.1 (dir.offset_pos (idxPos size.1 current) size)
  let new_distance := cur + 1
  match st.1.getD new_i none with
  | none => (st.1.set new_i (some new_distance), st.2 ++ [new_i])
  | some d2 =>
    if new_distance < d2 then
      (st.1.set new_i (some new_distance), st.2 ++ [new_i])
    else st

/-- The worklist loop of calculate_distances, fuelled. -/
def distLoop (size : Nat × Nat) :
    Nat → List (Option Nat) × List Nat → List (Option Nat)
  | 0, st => st.1
  | fuel + 1, st =>
    match st.2 with
    | [] => st.1
    | current :: rest =>
      let cur := (st.1.getD current none).getD 0
      distLoop size fuel
        (Direction.all_directions.foldl (distRelax size current cur) (st.1, rest))

/-- calculate_distances (src/distance.rs): seed every occupied cell with
distance 0, then expand with the four toroidal directions; the fuel
dominates the loop measure, as proved below, so the queue always drains. -/
def calculate_distances (size : Nat × Nat) (occupied_mask : List Bool) :
    List (Option Nat) :=
  let n := size.1 * size.2
  let distances := (List.range n).map
    (fun i => if occupied_mask.getD i false then some 0 else none)
  let queue := (List.range n).filter (fun i => occupied_mask.getD i false)
  distLoop size (n * (n + 2) + 1) (distances, queue)

/-- The cell weight of the distance loop measure: the sentinel weighs more
than any reachable value. -/
def distWeight (n : Nat) : Option Nat → Nat
  | none => n + 1
  | some v => v

/-- The strictly decreasing loop measure of the distance BFS. -/
def distMeasure (n : Nat) (st : List (Option Nat) × List Nat) : Nat :=
  (st.1.map (distWeight n)).sum + st.2.length

/-- There are hops from cell i to some occupied cell, m of them. -/
def HopsToOccupied (w h : Nat) (mask : List Bool) (i m : Nat) : Prop :=
  ∃ o, o < w * h ∧ mask.getD o false = true ∧ Chain (AdjI (w, h)) m i o

theorem countP_lt_of_fail {α : Type} (p : α → Bool) :
    ∀ (l : List α) (i : Nat) (d : α), i < l.length → p (l.getD i d) = false →
    l.countP p < l.length := by
  intro l
  induction l with
  | nil =>
    intro i d hi
    simp at hi
  | cons x t ih =>
    intro i d hi hnp
    cases i with
    | zero =>
      rw [List.countP_cons]
      have hxp : p x = false := hnp
      rw [hxp]
      have := List.countP_le_length p (l := t)
      simp only [Bool.false_eq_true, if_false, List.length_cons]
      omega
    | succ i =>
      have hg : (x :: t).getD (i + 1) d = t.getD i d := rfl
      rw [hg] at hnp
      have := ih i d (by simpa using hi) hnp
      rw [List.countP_cons]
      simp only [List.length_cons]
      split <;> omega

/-- Invariant of the distance BFS worklist loop. -/
structure DistInv (w h : Nat) (mask : List Bool)
    (st : List (Option Nat) × List Nat) : Prop where
  len : st.1.length = w * h
  queue_bounds : ∀ j ∈ st.2, j < w * h ∧ (st.1.getD j none).isSome = true
  val_bound : ∀ i v, st.1.getD i none = some v →
    v + 1 + st.1.countP Option.isNone ≤ w * h
  occupied_zero : ∀ i, i < w * h → mask.getD i false = true →
    st.1.getD i none = some 0
  sound : ∀ i v, st.1.getD i none = some v →
    ∃ o, o < w * h ∧ mask.getD o false = true ∧ Chain (AdjI (w, h)) v i o
  idle : ∀ i, i < w * h → i ∉ st.2 → ∀ v, st.1.getD i none = some v →
    ∀ d : Direction, ∃ v2,
    st.1.getD (cellIdx w (d.offset_pos (idxPos w i) (w, h))) none = some v2 ∧
    v2 ≤ v + 1

/-- Invariant holding while the four neighbors of the popped cell are
being processed; D is the list of already processed directions. -/
structure DistMid (w h : Nat) (mask : List Bool) (current curv : Nat)
    (D : List Direction) (st : List (Option Nat) × List Nat) : Prop where
  len : st.1.length = w * h
  queue_bounds : ∀ j ∈ st.2, j < w * h ∧ (st.1.getD j none).isSome = true
  val_bound : ∀ i v, st.1.getD i none = some v →
    v + 1 + st.1.countP Option.isNone ≤ w * h
  occupied_zero : ∀ i, i < w * h → mask.getD i false = true →
    st.1.getD i none = some 0
  sound : ∀ i v, st.1.getD i none = some v →
    ∃ o, o < w * h ∧ mask.getD o false = true ∧ Chain (AdjI (w, h)) v i o
  cur_val : st.1.getD current none = some curv
  cur_lt : current < w * h
  idle2 : ∀ i, i < w * h → i ∉ st.2 → i ≠ current → ∀ v,
    st.1.getD i none = some v → ∀ d : Direction, ∃ v2,
    st.1.getD (cellIdx w (d.offset_pos (idxPos w i) (w, h))) none = some v2 ∧
    v2 ≤ v + 1
  done : ∀ d ∈ D, ∃ v2,
    st.1.getD (cellIdx w (d.offset_pos (idxPos w current) (w, h))) none = some v2 ∧
    v2 ≤ curv + 1

theorem distRelax_step (w h : Nat) (mask : List Bool) (current curv : Nat)
    (D : List Direction) (st : List (Option Nat) × List Nat) (d : Direction)
    (hw : 0 < w) (hh : 0 < h)
    (hmid : DistMid w h mask current curv D st) :
    DistMid w h mask current curv (D ++ [d])
      (distRelax (w, h) current curv st d) ∧
    distMeasure (w * h) (distRelax (w, h) current curv st d)
      ≤ distMeasure (w * h) st := by
  unfold distRelax
  simp only
  set new_i := cellIdx w (d.offset_pos (idxPos w current) (w, h)) with hnew
  have hnewlt : new_i < w * h := by
    rw [hnew]
    exact cellIdx_lt_size w h _ (Direction.offset_pos_lt d _ w h hw hh).1
      (Direction.offset_pos_lt d _ w h hw hh).2
  have hnewlen : new_i < st.1.length := by
    rw [hmid.len]
    exact hnewlt
  have hadj : AdjI (w, h) current new_i := ⟨d, hnew⟩
  have hradj : AdjI (w, h) new_i current :=
    AdjI_symm w h current new_i hw hh hmid.cur_lt hadj
  split
  · rename_i hnone
    -- the neighbor held the sentinel: it is assigned curv + 1 and enqueued
    have hcurne : current ≠ new_i := by
      intro hc
      rw [← hc, hmid.cur_val] at hnone
      exact Option.noConfusion hnone
    have hcount := countP_set_lt Option.isNone st.1 new_i (some (curv + 1)) none
      hnewlen
    rw [hnone] at hcount
    simp at hcount
    have hbound := hmid.val_bound current curv hmid.cur_val
    have hgetnew : (st.1.set new_i (some (curv + 1))).getD new_i none
        = some (curv + 1) := by
      rw [getD_set, if_pos ⟨rfl, hnewlen⟩]
    have hgetold : ∀ k, k ≠ new_i →
        (st.1.set new_i (some (curv + 1))).getD k none = st.1.getD k none := by
      intro k hk
      rw [getD_set, if_neg (fun hc => hk hc.1.symm)]
    refine ⟨⟨?_, ?_, ?_, ?_, ?_, ?_, hmid.cur_lt, ?_, ?_⟩, ?_⟩
    · rw [List.length_set]
      exact hmid.len
    · intro j hj
      simp only [List.mem_append, List.mem_singleton] at hj
      rcases hj with hj | hj
      · obtain ⟨h1, h2⟩ := hmid.queue_bounds j hj
        refine ⟨h1, ?_⟩
        by_cases hjn : j = new_i
        · rw [hjn, hgetnew]
          rfl
        · rw [hgetold j hjn]
          exact h2
      · subst hj
        rw [hgetnew]
        exact ⟨hnewlt, rfl⟩
    · intro i v hv
      show v + 1 + (st.1.set new_i (some (curv + 1))).countP Option.isNone ≤ w * h
      by_cases hin : i = new_i
      · subst hin
        rw [hgetnew] at hv
        have hveq : v = curv + 1 := (Option.some.inj hv).symm
        subst hveq
        omega
      · rw [hgetold i hin] at hv
        have := hmid.val_bound i v hv
        omega
    · intro i hi hocc
      have hine : i ≠ new_i := by
        intro hc
        have hz := hmid.occupied_zero i hi hocc
        rw [hc, hnone] at hz
        exact Option.noConfusion hz
      rw [hgetold i hine]
      exact hmid.occupied_zero i hi hocc
    · intro i v hv
      by_cases hin : i = new_i
      · subst hin
        rw [hgetnew] at hv
        have hveq : v = curv + 1 := (Option.some.inj hv).symm
        subst hveq
        obtain ⟨o, ho, hmo, hch⟩ := hmid.sound current curv hmid.cur_val
        exact ⟨o, ho, hmo, Chain.step hradj hch⟩
      · rw [hgetold i hin] at hv
        exact hmid.sound i v hv
    · rw [hgetold current hcurne]
      exact hmid.cur_val
    · intro i hi hqi hic v hv d2
      have hine : i ≠ new_i := by
        intro hc
        apply hqi
        rw [hc]
        simp
      rw [hgetold i hine] at hv
      have hqi2 : i ∉ st.2 := fun hc => hqi (by simp [hc])
      obtain ⟨v2, hv2, hle⟩ := hmid.idle2 i hi hqi2 hic v hv d2
      have hjne : cellIdx w (d2.offset_pos (idxPos w i) (w, h)) ≠ new_i := by
        intro hc
        rw [hc, hnone] at hv2
        exact Option.noConfusion hv2
      rw [hgetold _ hjne]
      exact ⟨v2, hv2, hle⟩
    · intro d2 hd2
      simp only [List.mem_append, List.mem_singleton] at hd2
      rcases hd2 with hd2 | hd2
      · obtain ⟨v2, hv2, hle⟩ := hmid.done d2 hd2
        have hjne : cellIdx w (d2.offset_pos (idxPos w current) (w, h)) ≠ new_i := by
          intro hc
          rw [hc, hnone] at hv2
          exact Option.noConfusion hv2
        rw [hgetold _ hjne]
        exact ⟨v2, hv2, hle⟩
      · subst hd2
        rw [hgetnew]
        exact ⟨curv + 1, rfl, Nat.le_refl _⟩
    · unfold distMeasure
      simp only [List.length_append, List.length_singleton]
      have hsum := sum_map_set_lt (distWeight (w * h)) st.1 new_i
        (some (curv + 1)) none hnewlen
      rw [hnone] at hsum
      show ((st.1.set new_i (some (curv + 1))).map (distWeight (w * h))).sum
          + (st.2.length + 1)
        ≤ (st.1.map (distWeight (w * h))).sum + st.2.length
      have hw1 : distWeight (w * h) none = w * h + 1 := rfl
      have hw2 : distWeight (w * h) (some (curv + 1)) = curv + 1 := rfl
      rw [hw1, hw2] at hsum
      omega
  · rename_i d2 hsome
    split
    · rename_i hguard
      -- strict improvement: the neighbor is overwritten and enqueued
      have hcurne : current ≠ new_i := by
        intro hc
        rw [← hc, hmid.cur_val] at hsome
        have : curv = d2 := Option.some.inj hsome
        omega
      have hcount := countP_set_lt Option.isNone st.1 new_i (some (curv + 1)) none
        hnewlen
      rw [hsome] at hcount
      simp at hcount
      have hbound2 := hmid.val_bound new_i d2 hsome
      have hgetnew : (st.1.set new_i (some (curv + 1))).getD new_i none
          = some (curv + 1) := by
        rw [getD_set, if_pos ⟨rfl, hnewlen⟩]
      have hgetold : ∀ k, k ≠ new_i →
          (st.1.set new_i (some (curv + 1))).getD k none = st.1.getD k none := by
        intro k hk
        rw [getD_set, if_neg (fun hc => hk hc.1.symm)]
      refine ⟨⟨?_, ?_, ?_, ?_, ?_, ?_, hmid.cur_lt, ?_, ?_⟩, ?_⟩
      · rw [List.length_set]
        exact hmid.len
      · intro j hj
        simp only [List.mem_append, List.mem_singleton] at hj
        rcases hj with hj | hj
        · obtain ⟨h1, h2⟩ := hmid.queue_bounds j hj
          refine ⟨h1, ?_⟩
          by_cases hjn : j = new_i
          · rw [hjn, hgetnew]
            rfl
          · rw [hgetold j hjn]
            exact h2
        · subst hj
          rw [hgetnew]
          exact ⟨hnewlt, rfl⟩
      · intro i v hv
        show v + 1 + (st.1.set new_i (some (curv + 1))).countP Option.isNone ≤ w * h
        by_cases hin : i = new_i
        · subst hin
          rw [hgetnew] at hv
          have hveq : v = curv + 1 := (Option.some.inj hv).symm
          subst hveq
          omega
        · rw [hgetold i hin] at hv
          have := hmid.val_bound i v hv
          omega
      · intro i hi hocc
        have hzero := hmid.occupied_zero i hi hocc
        have hine : i ≠ new_i := by
          intro hc
          rw [hc, hsome] at hzero
          have h00 := Option.some.inj hzero
          omega
        rw [hgetold i hine]
        exact hzero
      · intro i v hv
        by_cases hin : i = new_i
        · subst hin
          rw [hgetnew] at hv
          have hveq : v = curv + 1 := (Option.some.inj hv).symm
          subst hveq
          obtain ⟨o, ho, hmo, hch⟩ := hmid.sound current curv hmid.cur_val
          exact ⟨o, ho, hmo, Chain.step hradj hch⟩
        · rw [hgetold i hin] at hv
          exact hmid.sound i v hv
      · rw [hgetold current hcurne]
        exact hmid.cur_val
      · intro i hi hqi hic v hv d3
        have hine : i ≠ new_i := by
          intro hc
          apply hqi
          rw [hc]
          simp
        rw [hgetold i hine] at hv
        have hqi2 : i ∉ st.2 := fun hc => hqi (by simp [hc])
        obtain ⟨v2, hv2, hle⟩ := hmid.idle2 i hi hqi2 hic v hv d3
        by_cases hjn : cellIdx w (d3.offset_pos (idxPos w i) (w, h)) = new_i
        · rw [hjn, hgetnew]
          refine ⟨curv + 1, rfl, ?_⟩
          rw [hjn, hsome] at hv2
          have : v2 = d2 := (Option.some.inj hv2).symm
          omega
        · rw [hgetold _ hjn]
          exact ⟨v2, hv2, hle⟩
      · intro d3 hd3
        simp only [List.mem_append, List.mem_singleton] at hd3
        rcases hd3 with hd3 | hd3
        · obtain ⟨v2, hv2, hle⟩ := hmid.done d3 hd3
          by_cases hjn : cellIdx w (d3.offset_pos (idxPos w current) (w, h)) = new_i
          · rw [hjn, hgetnew]
            exact ⟨curv + 1, rfl, Nat.le_refl _⟩
          · rw [hgetold _ hjn]
            exact ⟨v2, hv2, hle⟩
        · subst hd3
          rw [hgetnew]
          exact ⟨curv + 1, rfl, Nat.le_refl _⟩
      · unfold distMeasure
        simp only [List.length_append, List.length_singleton]
        have hsum := sum_map_set_lt (distWeight (w * h)) st.1 new_i
          (some (curv + 1)) none hnewlen
        rw [hsome] at hsum
        show ((st.1.set new_i (some (curv + 1))).map (distWeight (w * h))).sum
            + (st.2.length + 1)
          ≤ (st.1.map (distWeight (w * h))).sum + st.2.length
        have hw1 : distWeight (w * h) (some d2) = d2 := rfl
        have hw2 : distWeight (w * h) (some (curv + 1)) = curv + 1 := rfl
        rw [hw1, hw2] at hsum
        omega
    · rename_i hguard
      -- no improvement: the state is unchanged
      refine ⟨⟨hmid.len, hmid.queue_bounds, hmid.val_bound, hmid.occupied_zero,
        hmid.sound, hmid.cur_val, hmid.cur_lt, hmid.idle2, ?_⟩, Nat.le_refl _⟩
      intro d3 hd3
      simp only [List.mem_append, List.mem_singleton] at hd3
      rcases hd3 with hd3 | hd3
      · exact hmid.done d3 hd3
      · subst hd3
        exact ⟨d2, hsome, by omega⟩

theorem distRelax_fold (w h : Nat) (mask : List Bool) (current curv : Nat)
    (hw : 0 < w) (hh : 0 < h) :
    ∀ (dirs : List Direction) (D : List Direction)
      (st : List (Option Nat) × List Nat),
    DistMid w h mask current curv D st →
    DistMid w h mask current curv (D ++ dirs)
      (dirs.foldl (distRelax (w, h) current curv) st) ∧
    distMeasure (w * h) (dirs.foldl (distRelax (w, h) current curv) st)
      ≤ distMeasure (w * h) st := by
  intro dirs
  induction dirs with
  | nil =>
    intro D st hmid
    rw [List.foldl_nil]
    constructor
    · simpa using hmid
    · exact Nat.le_refl _
  | cons d restd ih =>
    intro D st hmid
    rw [List.foldl_cons]
    obtain ⟨hmid2, hle2⟩ := distRelax_step w h mask current curv D st d hw hh hmid
    obtain ⟨hmid3, hle3⟩ := ih (D ++ [d]) _ hmid2
    constructor
    · have he : D ++ d :: restd = (D ++ [d]) ++ restd := by simp
      rw [he]
      exact hmid3
    · omega

theorem distPop (w h : Nat) (mask : List Bool) (current : Nat)
    (rest : List Nat) (Dists : List (Option Nat))
    (hw : 0 < w) (hh : 0 < h)
    (hinv : DistInv w h mask (Dists, current :: rest)) :
    DistInv w h mask
      (Direction.all_directions.foldl
        (distRelax (w, h) current ((Dists.getD current none).getD 0))
        (Dists, rest)) ∧
    distMeasure (w * h)
        (Direction.all_directions.foldl
          (distRelax (w, h) current ((Dists.getD current none).getD 0))
          (Dists, rest))
      < distMeasure (w * h) (Dists, current :: rest) := by
  obtain ⟨hcl, hcs⟩ := hinv.queue_bounds current (by simp)
  obtain ⟨curv, hcurv⟩ := Option.isSome_iff_exists.mp hcs
  have hcv : (Dists.getD current none).getD 0 = curv := by
    rw [hcurv]
    rfl
  rw [hcv]
  have hmid0 : DistMid w h mask current curv [] (Dists, rest) := by
    refine ⟨hinv.len, ?_, hinv.val_bound, hinv.occupied_zero, hinv.sound,
      hcurv, hcl, ?_, ?_⟩
    · intro j hj
      exact hinv.queue_bounds j (by simp [hj])
    · intro i hi hqi hic v hv d
      refine hinv.idle i hi ?_ v hv d
      intro hc
      simp only [List.mem_cons] at hc
      rcases hc with hc | hc
      · exact hic hc
      · exact hqi hc
    · intro d hd
      simp at hd
  obtain ⟨hmid, hle⟩ := distRelax_fold w h mask current curv hw hh
    Direction.all_directions [] (Dists, rest) hmid0
  constructor
  · refine ⟨hmid.len, hmid.queue_bounds, hmid.val_bound, hmid.occupied_zero,
      hmid.sound, ?_⟩
    intro i hi hqi v hv d
    by_cases hic : i = current
    · subst hic
      have hveq : v = curv := by
        rw [hmid.cur_val] at hv
        exact (Option.some.inj hv).symm
      subst hveq
      refine hmid.done d ?_
      cases d <;> simp [Direction.all_directions]
    · exact hmid.idle2 i hi hqi hic v hv d
  · have h1 : distMeasure (w * h) (Dists, rest)
        < distMeasure (w * h) (Dists, current :: rest) := by
      unfold distMeasure
      simp only [List.length_cons]
      omega
    omega

theorem distLoop_correct (w h : Nat) (mask : List Bool)
    (hw : 0 < w) (hh : 0 < h) :
    ∀ (fuel : Nat) (st : List (Option Nat) × List Nat),
    DistInv w h mask st → distMeasure (w * h) st < fuel →
    (∀ i v, (distLoop (w, h) fuel st).getD i none = some v →
      ∃ o, o < w * h ∧ mask.getD o false = true ∧ Chain (AdjI (w, h)) v i o) ∧
    (∀ i, i < w * h → mask.getD i false = true →
      (distLoop (w, h) fuel st).getD i none = some 0) ∧
    (∀ i, i < w * h → ∀ v, (distLoop (w, h) fuel st).getD i none = some v →
      ∀ d : Direction, ∃ v2,
      (distLoop (w, h) fuel st).getD
        (cellIdx w (d.offset_pos (idxPos w i) (w, h))) none = some v2 ∧
      v2 ≤ v + 1) := by
  intro fuel
  induction fuel with
  | zero =>
    intro st _ hlt
    omega
  | succ fuel ih =>
    intro st hinv hlt
    rcases st with ⟨R, Q⟩
    rcases hq : Q with _ | ⟨cur, rest⟩
    · subst hq
      have hunfold : distLoop (w, h) (fuel + 1) (R, []) = R := rfl
      rw [hunfold]
      refine ⟨hinv.sound, hinv.occupied_zero, ?_⟩
      intro i hi v hv d
      exact hinv.idle i hi (by simp) v hv d
    · subst hq
      obtain ⟨hinv2, hlt2⟩ := distPop w h mask cur rest R hw hh hinv
      have hunfold : distLoop (w, h) (fuel + 1) (R, cur :: rest) =
          distLoop (w, h) fuel
            (Direction.all_directions.foldl
              (distRelax (w, h) cur ((R.getD cur none).getD 0)) (R, rest)) := rfl
      rw [hunfold]
      exact ih _ hinv2 (by omega)

theorem offset_right_eq (w h x y : Nat) (hy : y < h) :
    Direction.right.offset_pos (x, y) (w, h) = ((x + 1) % w, y) := by
  unfold Direction.offset_pos
  simp only [Direction.dx, Direction.dy]
  refine Prod.ext ?_ ?_
  · exact Direction.wrap_add_one w x
  · exact Direction.wrap_add_zero h y hy

theorem offset_down_eq (w h x y : Nat) (hx : x < w) :
    Direction.down.offset_pos (x, y) (w, h) = (x, (y + 1) % h) := by
  unfold Direction.offset_pos
  simp only [Direction.dx, Direction.dy]
  refine Prod.ext ?_ ?_
  · exact Direction.wrap_add_zero w x hx
  · exact Direction.wrap_add_one h y

theorem chain_right (w h : Nat) (hw : 0 < w) (hh : 0 < h) :
    ∀ (k x y : Nat), x < w → y < h →
    Chain (AdjI (w, h)) k (cellIdx w (x, y)) (cellIdx w ((x + k) % w, y)) := by
  intro k
  induction k with
  | zero =>
    intro x y hx hy
    have he : (x + 0) % w = x := by
      rw [Nat.add_zero, Nat.mod_eq_of_lt hx]
    rw [he]
    exact Chain.refl _
  | succ k ih =>
    intro x y hx hy
    have hadj : AdjI (w, h) (cellIdx w (x, y)) (cellIdx w ((x + 1) % w, y)) := by
      refine ⟨Direction.right, ?_⟩
      rw [idxPos_cellIdx w (x, y) hw hx]
      rw [offset_right_eq w h x y hy]
    have hch := ih ((x + 1) % w) y (Nat.mod_lt _ hw) hy
    have harith : ((x + 1) % w + k) % w = (x + (k + 1)) % w := by
      rw [Nat.mod_add_mod]
      congr 1
      omega
    rw [harith] at hch
    exact Chain.step hadj hch

theorem chain_down (w h : Nat) (hw : 0 < w) (hh : 0 < h) :
    ∀ (k x y : Nat), x < w → y < h →
    Chain (AdjI (w, h)) k (cellIdx w (x, y)) (cellIdx w (x, (y + k) % h)) := by
  intro k
  induction k with
  | zero =>
    intro x y hx hy
    have he : (y + 0) % h = y := by
      rw [Nat.add_zero, Nat.mod_eq_of_lt hy]
    rw [he]
    exact Chain.refl _
  | succ k ih =>
    intro x y hx hy
    have hadj : AdjI (w, h) (cellIdx w (x, y)) (cellIdx w (x, (y + 1) % h)) := by
      refine ⟨Direction.down, ?_⟩
      rw [idxPos_cellIdx w (x, y) hw hx]
      rw [offset_down_eq w h x y hx]
    have hch := ih x ((y + 1) % h) hx (Nat.mod_lt _ hh)
    have harith : ((y + 1) % h + k) % h = (y + (k + 1)) % h := by
      rw [Nat.mod_add_mod]
      congr 1
      omega
    rw [harith] at hch
    exact Chain.step hadj hch

/-- The torus is connected: some number of hops joins any two cells. -/
theorem chain_exists (w h : Nat) (hw : 0 < w) (hh : 0 < h) (i o : Nat)
    (hi : i < w * h) (ho : o < w * h) :
    ∃ m, Chain (AdjI (w, h)) m i o := by
  obtain ⟨hx, hy⟩ := idxPos_inbounds w h i hw hh hi
  obtain ⟨hx2, hy2⟩ := idxPos_inbounds w h o hw hh ho
  set x := (idxPos w i).1
  set y := (idxPos w i).2
  set x2 := (idxPos w o).1
  set y2 := (idxPos w o).2
  have h1 : (x + (x2 + w - x) % w) % w = x2 := by
    rw [Nat.add_mod_mod]
    have he : x + (x2 + w - x) = x2 + w := by omega
    rw [he, Nat.add_mod_right, Nat.mod_eq_of_lt hx2]
  have h2 : (y + (y2 + h - y) % h) % h = y2 := by
    rw [Nat.add_mod_mod]
    have he : y + (y2 + h - y) = y2 + h := by omega
    rw [he, Nat.add_mod_right, Nat.mod_eq_of_lt hy2]
  have hch1 := chain_right w h hw hh ((x2 + w - x) % w) x y hx hy
  rw [h1] at hch1
  have hch2 := chain_down w h hw hh ((y2 + h - y) % h) x2 y hx2 hy
  rw [h2] at hch2
  have hcomb := Chain.append _ hch1 hch2
  refine ⟨(x2 + w - x) % w + (y2 + h - y) % h, ?_⟩
  have hii : cellIdx w (x, y) = i := by
    show cellIdx w ((idxPos w i).1, (idxPos w i).2) = i
    rw [Prod.mk.eta]
    exact cellIdx_idxPos w h i hw hi
  have hoo : cellIdx w (x2, y2) = o := by
    show cellIdx w ((idxPos w o).1, (idxPos w o).2) = o
    rw [Prod.mk.eta]
    exact cellIdx_idxPos w h o hw ho
  rw [hii, hoo] at hcomb
  exact hcomb

/-- From the terminal facts of the loop, every cell within m hops of an
occupied cell holds a value of at most m. -/
theorem dist_le_hops (w h : Nat) (mask : List Bool) (R : List (Option Nat))
    (hw : 0 < w) (hh : 0 < h)
    (hocc : ∀ i, i < w * h → mask.getD i false = true → R.getD i none = some 0)
    (hlip : ∀ i, i < w * h → ∀ v, R.getD i none = some v → ∀ d : Direction,
      ∃ v2, R.getD (cellIdx w (d.offset_pos (idxPos w i) (w, h))) none = some v2 ∧
        v2 ≤ v + 1) :
    ∀ (m i : Nat), i < w * h → HopsToOccupied w h mask i m →
    ∃ v, R.getD i none = some v ∧ v ≤ m := by
  intro m
  induction m with
  | zero =>
    intro i hi hhop
    obtain ⟨o, ho, hmo, hch⟩ := hhop
    cases hch
    exact ⟨0, hocc i hi hmo, Nat.le_refl _⟩
  | succ m ih =>
    intro i hi hhop
    obtain ⟨o, ho, hmo, hch⟩ := hhop
    cases hch with
    | step hr hch2 =>
      rename_i b
      have hb : b < w * h := AdjI_lt w h i b hw hh hr
      obtain ⟨vb, hvb, hvble⟩ := ih b hb ⟨o, ho, hmo, hch2⟩
      obtain ⟨d, hd⟩ := AdjI_symm w h i b hw hh hi hr
      obtain ⟨v2, hv2, hle2⟩ := hlip b hb vb hvb d
      rw [← hd] at hv2
      exact ⟨v2, hv2, by omega⟩

theorem list_sum_le (B : Nat) :
    ∀ (l : List Nat), (∀ x ∈ l, x ≤ B) → l.sum ≤ l.length * B := by
  intro l
  induction l with
  | nil =>
    intro _
    simp
  | cons x t ih =>
    intro hb
    have h1 := hb x (List.mem_cons_self x t)
    have h2 := ih (fun y hy => hb y (List.mem_cons_of_mem x hy))
    show x + t.sum ≤ (t.length + 1) * B
    have he : (t.length + 1) * B = t.length * B + B := by ring
    omega

theorem distLoop_nil_queue (size : Nat × Nat) :
    ∀ (fuel : Nat) (dd : List (Option Nat)),
    distLoop size fuel (dd, []) = dd := by
  intro fuel dd
  cases fuel <;> rfl

theorem distInit_getD (w h : Nat) (mask : List Bool) (i : Nat) :
    ((List.range (w * h)).map
        (fun i => if mask.getD i false then some 0 else none)).getD i none =
      if i < w * h then (if mask.getD i false then some 0 else none)
      else none := by
  rcases Nat.lt_or_ge i (w * h) with hi | hi
  · rw [List.getD_eq_getElem?_getD, List.getElem?_map, List.getElem?_range hi,
      if_pos hi]
    rfl
  · rw [getD_of_le _ _ _ (by simpa using hi), if_neg (by omega)]

theorem distQueue_mem (w h : Nat) (mask : List Bool) (j : Nat) :
    j ∈ (List.range (w * h)).filter (fun i => mask.getD i false) ↔
      j < w * h ∧ mask.getD j false = true := by
  rw [List.mem_filter, List.mem_range]

theorem calculate_distances_correct (w h : Nat) (mask : List Bool)
    (hw : 0 < w) (hh : 0 < h) :
    (∀ i v, (calculate_distances (w, h) mask).getD i none = some v →
      ∃ o, o < w * h ∧ mask.getD o false = true ∧ Chain (AdjI (w, h)) v i o) ∧
    (∀ i, i < w * h → mask.getD i false = true →
      (calculate_distances (w, h) mask).getD i none = some 0) ∧
    (∀ i, i < w * h → ∀ v, (calculate_distances (w, h) mask).getD i none = some v →
      ∀ d : Direction, ∃ v2,
      (calculate_distances (w, h) mask).getD
        (cellIdx w (d.offset_pos (idxPos w i) (w, h))) none = some v2 ∧
      v2 ≤ v + 1) := by
  have hinv : DistInv w h mask
      ((List.range (w * h)).map
        (fun i => if mask.getD i false then some 0 else none),
       (List.range (w * h)).filter (fun i => mask.getD i false)) := by
    refine ⟨?_, ?_, ?_, ?_, ?_, ?_⟩
    · simp
    · intro j hj
      obtain ⟨hj1, hj2⟩ := (distQueue_mem w h mask j).mp hj
      refine ⟨hj1, ?_⟩
      rw [distInit_getD, if_pos hj1, if_pos hj2]
      rfl
    · intro i v hv
      show v + 1 + ((List.range (w * h)).map
          (fun i => if mask.getD i false then some 0 else none)).countP
            Option.isNone ≤ w * h
      rw [distInit_getD] at hv
      rcases Decidable.em (i < w * h) with hi | hi
      · rw [if_pos hi] at hv
        rcases hm : mask.getD i false with _ | _
        · rw [hm] at hv
          simp at hv
        · rw [hm, if_pos rfl] at hv
          have hvz : v = 0 := (Option.some.inj hv).symm
          subst hvz
          have hfail := countP_lt_of_fail Option.isNone
            ((List.range (w * h)).map
              (fun i => if mask.getD i false then some 0 else none))
            i none (by simpa using hi)
            (by rw [distInit_getD, if_pos hi, hm, if_pos rfl]; rfl)
          simp only [List.length_map, List.length_range] at hfail
          omega
      · rw [if_neg hi] at hv
        exact Option.noConfusion hv
    · intro i hi hm
      rw [distInit_getD, if_pos hi, hm, if_pos rfl]
    · intro i v hv
      rw [distInit_getD] at hv
      rcases Decidable.em (i < w * h) with hi | hi
      · rw [if_pos hi] at hv
        rcases hm : mask.getD i false with _ | _
        · rw [hm] at hv
          simp at hv
        · rw [hm, if_pos rfl] at hv
          have hvz : v = 0 := (Option.some.inj hv).symm
          subst hvz
          exact ⟨i, hi, hm, Chain.refl i⟩
      · rw [if_neg hi] at hv
        exact Option.noConfusion hv
    · intro i hi hqi v hv d
      exfalso
      apply hqi
      rw [distInit_getD, if_pos hi] at hv
      rcases hm : mask.getD i false with _ | _
      · rw [hm] at hv
        simp at hv
      · exact (distQueue_mem w h mask i).mpr ⟨hi, hm⟩
  have hmeas : distMeasure (w * h)
      ((List.range (w * h)).map
        (fun i => if mask.getD i false then some 0 else none),
       (List.range (w * h)).filter (fun i => mask.getD i false))
      < w * h * (w * h + 2) + 1 := by
    unfold distMeasure
    show (((List.range (w * h)).map
          (fun i => if mask.getD i false then some 0 else none)).map
          (distWeight (w * h))).sum
        + ((List.range (w * h)).filter (fun i => mask.getD i false)).length
      < w * h * (w * h + 2) + 1
    have hsum := list_sum_le (w * h + 1)
      (((List.range (w * h)).map
        (fun i => if mask.getD i false then some 0 else none)).map
        (distWeight (w * h)))
      (by
        intro x hx
        obtain ⟨y, hy1, hy2⟩ := List.mem_map.mp hx
        obtain ⟨z, hz1, hz2⟩ := List.mem_map.mp hy1
        rw [← hy2, ← hz2]
        split <;> simp [distWeight])
    simp only [List.length_map, List.length_range] at hsum
    have hqlen : ((List.range (w * h)).filter
        (fun i => mask.getD i false)).length ≤ w * h := by
      calc ((List.range (w * h)).filter (fun i => mask.getD i false)).length
          ≤ (List.range (w * h)).length := List.length_filter_le _ _
        _ = w * h := List.length_range _
    have hexp : w * h * (w * h + 2) = w * h * (w * h + 1) + w * h := by ring
    omega
  exact distLoop_correct w h mask hw hh (w * h * (w * h + 2) + 1) _ hinv hmeas

/-- C3: in the distance field, a value is 0 exactly on occupied cells,
values of toroidally adjacent cells differ by at most 1, every cell's
value is the minimum number of 4-connected toroidal hops to an occupied
cell, and the sentinel survives only when the mask holds no occupied cell
at all. -/
theorem C3_distance_field (w h : Nat) (mask : List Bool)
    (hw : 0 < w) (hh : 0 < h) (hlen : mask.length = w * h) :
    (∀ i, i < w * h →
      ((calculate_distances (w, h) mask).getD i none = some 0 ↔
        mask.getD i false = true)) ∧
    (∀ i, i < w * h → ∀ d : Direction, ∀ u v,
      (calculate_distances (w, h) mask).getD i none = some u →
      (calculate_distances (w, h) mask).getD
        (cellIdx w (d.offset_pos (idxPos w i) (w, h))) none = some v →
      v ≤ u + 1 ∧ u ≤ v + 1) ∧
    ((∃ o, o < w * h ∧ mask.getD o false = true) →
      ∀ i, i < w * h →
      ∃ v, (calculate_distances (w, h) mask).getD i none = some v ∧
        HopsToOccupied w h mask i v ∧
        (∀ m, HopsToOccupied w h mask i m → v ≤ m)) ∧
    ((∀ o, o < w * h → mask.getD o false = false) →
      ∀ i, (calculate_distances (w, h) mask).getD i none = none) := by
  obtain ⟨hsound, hocc, hlip⟩ := calculate_distances_correct w h mask hw hh
  refine ⟨?_, ?_, ?_, ?_⟩
  · intro i hi
    constructor
    · intro hz
      obtain ⟨o, ho, hmo, hch⟩ := hsound i 0 hz
      cases hch
      exact hmo
    · exact hocc i hi
  · intro i hi d u v hu hv
    obtain ⟨v2, hv2, hle2⟩ := hlip i hi u hu d
    rw [hv] at hv2
    have hveq : v = v2 := Option.some.inj hv2
    subst hveq
    refine ⟨hle2, ?_⟩
    set j := cellIdx w (d.offset_pos (idxPos w i) (w, h)) with hj
    have hjlt : j < w * h := by
      rw [hj]
      exact cellIdx_lt_size w h _ (Direction.offset_pos_lt d _ w h hw hh).1
        (Direction.offset_pos_lt d _ w h hw hh).2
    have hadj : AdjI (w, h) i j := ⟨d, hj⟩
    obtain ⟨d2, hd2⟩ := AdjI_symm w h i j hw hh hi hadj
    obtain ⟨u2, hu2, hule⟩ := hlip j hjlt v hv d2
    rw [← hd2, hu] at hu2
    have hueq : u = u2 := Option.some.inj hu2
    subst hueq
    exact hule
  · intro hex i hi
    obtain ⟨o, ho, hmo⟩ := hex
    obtain ⟨m, hch⟩ := chain_exists w h hw hh i o hi ho
    obtain ⟨v, hv, hvle⟩ := dist_le_hops w h mask _ hw hh hocc hlip m i hi
      ⟨o, ho, hmo, hch⟩
    refine ⟨v, hv, ?_, ?_⟩
    · obtain ⟨o2, ho2, hmo2, hch2⟩ := hsound i v hv
      exact ⟨o2, ho2, hmo2, hch2⟩
    · intro m2 hhop2
      obtain ⟨v3, hv3, hvle3⟩ := dist_le_hops w h mask _ hw hh hocc hlip m2 i hi
        hhop2
      rw [hv] at hv3
      have hveq : v = v3 := Option.some.inj hv3
      omega
  · intro hempty i
    have hq : (List.range (w * h)).filter (fun i => mask.getD i false) = [] := by
      rw [List.filter_eq_nil]
      intro a ha
      rw [List.mem_range] at ha
      rw [hempty a ha]
      simp
    show (distLoop (w, h) (w * h * (w * h + 2) + 1)
        ((List.range (w * h)).map
          (fun i => if mask.getD i false then some 0 else none),
         (List.range (w * h)).filter (fun i => mask.getD i false))).getD i none
      = none
    rw [hq, distLoop_nil_queue, distInit_getD]
    rcases Decidable.em (i < w * h) with hi | hi
    · rw [if_pos hi, hempty i hi]
      simp
    · rw [if_neg hi]

/-- C3 witness at a concrete input. -/
theorem C3_distance_field_witness :
    (calculate_distances (2, 2) [true, false, false, false]).getD 0 none
        = some 0 ↔
      ([true, false, false, false] : List Bool).getD 0 false = true :=
  (C3_distance_field 2 2 [true, false, false, false] (by decide) (by decide)
    (by decide)).1 0 (by decide)

/-! ## Shortest path next direction (src/shortest_path.rs)

The source builds an undirected petgraph graph over all cells and calls
petgraph::algo::astar with unit weights and a zero heuristic.  The astar
call is an external library call; its result is passed to the model as a
parameter and constrained in the theorem by the library's contract: it
returns a minimum-length path between the endpoints when one exists and
nothing otherwise. -/

/-- One generated edge of the free-cell graph: cell i is joined to its
Right or Down toroidal neighbor when both endpoints are free under the
mask, the start cell counting as free. -/
def spEdge (size : Nat × Nat) (mask : List Bool) (start_pos : Nat × Nat)
    (i j : Nat) : Prop :=
  i < size.1 * size.2 ∧
  (j = cellIdx size.1 (Direction.right.offset_pos (idxPos size.1 i) size) ∨
   j = cellIdx size.1 (Direction.down.offset_pos (idxPos size.1 i) size)) ∧
  (mask.getD i false = false ∨ idxPos size.1 i = start_pos) ∧
  (mask.getD j false = false ∨ idxPos size.1 j = start_pos)

/-- Undirected adjacency of the free-cell graph. -/
def spAdj (size : Nat × Nat) (mask : List Bool) (start_pos : Nat × Nat)
    (i j : Nat) : Prop :=
  spEdge size mask start_pos i j ∨ spEdge size mask start_pos j i

instance (size : Nat × Nat) (mask : List Bool) (start_pos : Nat × Nat)
    (i j : Nat) : Decidable (spEdge size mask start_pos i j) := by
  unfold spEdge
  infer_instance

instance (size : Nat × Nat) (mask : List Bool) (start_pos : Nat × Nat)
    (i j : Nat) : Decidable (spAdj size mask start_pos i j) := by
  unfold spAdj
  infer_instance

/-- A nonempty node list whose consecutive nodes are related. -/
def IsPathList (R : Nat → Nat → Prop) : List Nat → Prop
  | [] => False
  | [_] => True
  | a :: b :: rest => R a b ∧ IsPathList R (b :: rest)

/-- A minimum-length path from s to t. -/
def IsShortestPath (R : Nat → Nat → Prop) (s t : Nat) (p : List Nat) : Prop :=
  IsPathList R p ∧ p.head? = some s ∧ p.getLast? = some t ∧
  ∀ q : List Nat, IsPathList R q → q.head? = some s → q.getLast? = some t →
    p.length ≤ q.length

/-- shortest_path_next_direction (src/shortest_path.rs): post-processing
of the astar result, which is passed as the astar_path parameter. -/
def shortest_path_next_direction (size : Nat × Nat)
    (start_pos target_pos : Nat × Nat) (astar_path : Option (List Nat)) :
    Option Direction :=
  match astar_path with
  | none => none
  | some path =>
    if 2 ≤ path.length then
      let a_i := path.getD 0 0
      let b_i := path.getD 1 0
      let a_pos := idxPos size.1 a_i
      let b_pos := idxPos size.1 b_i
      Direction.all_directions.find?
        (fun d => decide (d.offset_pos a_pos size = b_pos))
    else none

theorem path_single_eq (R : Nat → Nat → Prop) (q : List Nat) (s t : Nat)
    (hq : IsPathList R q) (hh : q.head? = some s) (hl : q.getLast? = some t)
    (hlen : q.length < 2) : s = t := by
  match q with
  | [] => exact absurd hq (by simp [IsPathList])
  | [x] =>
    have h1 : x = s := by simpa using hh
    have h2 : x = t := by simpa using hl
    rw [← h1, ← h2]
  | a :: b :: rest =>
    exfalso
    simp only [List.length_cons] at hlen
    omega

theorem path_length_ge_two (R : Nat → Nat → Prop) (q : List Nat) (s t : Nat)
    (hst : s ≠ t) (hq : IsPathList R q) (hh : q.head? = some s)
    (hl : q.getLast? = some t) : 2 ≤ q.length := by
  by_contra hc
  exact hst (path_single_eq R q s t hq hh hl (by omega))

/-- A neighbor of the start cell in the free-cell graph is reached by one
of the four directions from the start position. -/
theorem spAdj_start_direction (w h : Nat) (mask : List Bool) (sp : Nat × Nat)
    (b : Nat) (hw : 0 < w) (hh : 0 < h) (hsx : sp.1 < w) (hsy : sp.2 < h)
    (hadj : spAdj (w, h) mask sp (cellIdx w sp) b) :
    ∃ d : Direction, d.offset_pos sp (w, h) = idxPos w b := by
  have hslt : cellIdx w sp < w * h := cellIdx_lt_size w h sp hsx hsy
  have hsidx : idxPos w (cellIdx w sp) = sp := idxPos_cellIdx w sp hw hsx
  rcases hadj with ⟨_, hdir, _, _⟩ | ⟨hblt, hdir, _, _⟩
  · rcases hdir with hdir | hdir
    · refine ⟨Direction.right, ?_⟩
      rw [hdir, hsidx, idxPos_cellIdx w _ hw
        (Direction.offset_pos_lt Direction.right sp w h hw hh).1]
    · refine ⟨Direction.down, ?_⟩
      rw [hdir, hsidx, idxPos_cellIdx w _ hw
        (Direction.offset_pos_lt Direction.down sp w h hw hh).1]
  · have hbin := idxPos_inbounds w h b hw hh hblt
    rcases hdir with hdir | hdir
    · refine ⟨Direction.left, ?_⟩
      have hs2 : sp = Direction.right.offset_pos (idxPos w b) (w, h) := by
        rw [← hsidx, hdir]
        rw [idxPos_cellIdx w _ hw
          (Direction.offset_pos_lt Direction.right _ w h hw hh).1]
      have hrt := Direction.C2_offset_reverse_roundtrip w h (idxPos w b).1
        (idxPos w b).2 Direction.right hw hh hbin.1 hbin.2
      rw [hs2]
      show Direction.right.reverse.offset_pos
        (Direction.right.offset_pos (idxPos w b) (w, h)) (w, h) = idxPos w b
      simpa using hrt
    · refine ⟨Direction.up, ?_⟩
      have hs2 : sp = Direction.down.offset_pos (idxPos w b) (w, h) := by
        rw [← hsidx, hdir]
        rw [idxPos_cellIdx w _ hw
          (Direction.offset_pos_lt Direction.down _ w h hw hh).1]
      have hrt := Direction.C2_offset_reverse_roundtrip w h (idxPos w b).1
        (idxPos w b).2 Direction.down hw hh hbin.1 hbin.2
      rw [hs2]
      show Direction.down.reverse.offset_pos
        (Direction.down.offset_pos (idxPos w b) (w, h)) (w, h) = idxPos w b
      simpa using hrt

/-- C5: the resolver returns no direction exactly when the start equals
the target or no path joins them in the free-cell graph; when it returns
a direction, stepping from the start by that direction lands on the second
cell of a shortest path. -/
theorem C5_shortest_path (w h : Nat) (mask : List Bool) (sp tp : Nat × Nat)
    (astar_path : Option (List Nat))
    (hw : 0 < w) (hh : 0 < h) (hlen : mask.length = w * h)
    (hsx : sp.1 < w) (hsy : sp.2 < h) (htx : tp.1 < w) (hty : tp.2 < h)
    (Hsome : ∀ p, astar_path = some p →
      IsShortestPath (spAdj (w, h) mask sp) (cellIdx w sp) (cellIdx w tp) p)
    (Hnone : astar_path = none →
      ¬ ∃ q, IsPathList (spAdj (w, h) mask sp) q ∧
        q.head? = some (cellIdx w sp) ∧ q.getLast? = some (cellIdx w tp)) :
    (shortest_path_next_direction (w, h) sp tp astar_path = none ↔
      (sp = tp ∨ ¬ ∃ q, IsPathList (spAdj (w, h) mask sp) q ∧
        q.head? = some (cellIdx w sp) ∧ q.getLast? = some (cellIdx w tp))) ∧
    (∀ d, shortest_path_next_direction (w, h) sp tp astar_path = some d →
      ∃ p, IsShortestPath (spAdj (w, h) mask sp) (cellIdx w sp) (cellIdx w tp) p ∧
        2 ≤ p.length ∧ d.offset_pos sp (w, h) = idxPos w (p.getD 1 0)) := by
  rcases astar_path with _ | p
  · constructor
    · constructor
      · intro _
        exact Or.inr (Hnone rfl)
      · intro _
        rfl
    · intro d hd
      exact Option.noConfusion hd
  · have hsp := Hsome p rfl
    obtain ⟨hpath, hhead, hlast, hmin⟩ := hsp
    rcases Nat.lt_or_ge p.length 2 with hplen | hplen
    · -- start equals target: the path is a single node
      have hst : cellIdx w sp = cellIdx w tp :=
        path_single_eq _ p _ _ hpath hhead hlast hplen
      have hsptp : sp = tp := by
        have h1 := idxPos_cellIdx w sp hw hsx
        have h2 := idxPos_cellIdx w tp hw htx
        rw [← h1, ← h2, hst]
      have hres : shortest_path_next_direction (w, h) sp tp (some p) = none := by
        simp only [shortest_path_next_direction]
        rw [if_neg (by omega)]
      constructor
      · rw [hres]
        exact ⟨fun _ => Or.inl hsptp, fun _ => rfl⟩
      · intro d hd
        rw [hres] at hd
        exact Option.noConfusion hd
    · -- a real path: the second node is adjacent to the start
      obtain ⟨s0, tail, hptail⟩ : ∃ s0 tail, p = s0 :: tail := by
        cases p with
        | nil => simp [IsPathList] at hpath
        | cons a t => exact ⟨a, t, rfl⟩
      subst hptail
      have hs0 : s0 = cellIdx w sp := by simpa using hhead
      obtain ⟨b, rest, htl⟩ : ∃ b rest, tail = b :: rest := by
        cases tail with
        | nil => simp at hplen
        | cons a t => exact ⟨a, t, rfl⟩
      subst htl
      have hadj : spAdj (w, h) mask sp (cellIdx w sp) b := by
        rw [← hs0]
        exact hpath.1
      obtain ⟨d0, hd0⟩ := spAdj_start_direction w h mask sp b hw hh hsx hsy hadj
      have hget0 : (s0 :: b :: rest).getD 0 0 = cellIdx w sp := by
        rw [hs0]
        rfl
      have hget1 : (s0 :: b :: rest).getD 1 0 = b := rfl
      have hfind : (Direction.all_directions.find?
          (fun d => decide (d.offset_pos (idxPos w ((s0 :: b :: rest).getD 0 0))
            (w, h) = idxPos w ((s0 :: b :: rest).getD 1 0)))).isSome = true := by
        rw [List.find?_isSome]
        refine ⟨d0, by cases d0 <;> simp [Direction.all_directions], ?_⟩
        rw [hget0, hget1, idxPos_cellIdx w sp hw hsx, hd0]
        simp
      have hres : ∀ dres,
          shortest_path_next_direction (w, h) sp tp (some (s0 :: b :: rest))
            = some dres →
          dres.offset_pos sp (w, h) = idxPos w b := by
        intro dres hdres
        simp only [shortest_path_next_direction] at hdres
        rw [if_pos (by simpa using hplen)] at hdres
        have hpred := List.find?_some hdres
        rw [hget0, hget1, idxPos_cellIdx w sp hw hsx] at hpred
        simpa using hpred
      have hissome : (shortest_path_next_direction (w, h) sp tp
          (some (s0 :: b :: rest))).isSome = true := by
        simp only [shortest_path_next_direction]
        rw [if_pos (by simpa using hplen)]
        simpa using hfind
      constructor
      · constructor
        · intro hc
          rw [hc] at hissome
          exact absurd hissome (by simp)
        · intro hc
          exfalso
          rcases hc with hc | hc
          · -- start equals target contradicts minimality
            have hq1 : IsPathList (spAdj (w, h) mask sp) [cellIdx w sp] := by
              simp [IsPathList]
            have h2 := hmin [cellIdx w sp] hq1 (by simp)
              (by rw [hc]; simp)
            simp only [List.length_cons, List.length_nil] at h2
            omega
          · exact hc ⟨s0 :: b :: rest, hpath, hhead, hlast⟩
      · intro d hd
        refine ⟨s0 :: b :: rest, ⟨hpath, hhead, hlast, hmin⟩, by simpa using hplen,
          ?_⟩
        rw [hget1]
        exact hres d hd

/-- C5 witness at a concrete input: a 2 by 1 free board, start (0,0),
target (1,0), astar result the two-cell path. -/
theorem C5_shortest_path_witness :
    shortest_path_next_direction (2, 1) (0, 0) (1, 0) (some [0, 1]) = none ↔
      (((0, 0) : Nat × Nat) = (1, 0) ∨
        ¬ ∃ q, IsPathList (spAdj (2, 1) [false, false] (0, 0)) q ∧
          q.head? = some (cellIdx 2 (0, 0)) ∧
          q.getLast? = some (cellIdx 2 (1, 0))) :=
  (C5_shortest_path 2 1 [false, false] (0, 0) (1, 0) (some [0, 1])
    (by decide) (by decide) (by decide) (by decide) (by decide) (by decide)
    (by decide)
    (by
      intro p hp
      cases hp
      refine ⟨⟨?_, trivial⟩, rfl, rfl, ?_⟩
      · exact Or.inl (by decide)
      · intro q hq hh2 hl2
        exact path_length_ge_two _ q _ _ (by decide) hq hh2 hl2)
    (fun hc => Option.noConfusion hc)).1

end SnakeBot
